import Mathlib

/-!
# Fm::PathBar and Fm::RenameDialog

A shallow embedding of `src/pathbar.cpp` and `src/renamedialog.cpp`.

Widgets are records of the state the handlers read and write, slots are
functions on those records, emitted signals are appended to a log, and
zero-delay timer callbacks are appended to a queue of pending slots.
`std::string` and `QString` values are `String`s, inspected through their
list of characters.
-/

namespace Fm

/-! ## Fm::FilePath -/

/-- The operations of `Fm::FilePath` that the two widgets call. The class is
declared in `core/filepath.h`, which is not among the sources, so its methods
are parameters of the embedding. `Q` is the type of file locations (what a
non-null `FilePath` wraps); `operator==` is equality of locations. -/
structure FilePathOps (Q : Type) where
  /-- `FilePath::parent()`; `none` is the invalid (null) path. -/
  parent : Q → Option Q
  /-- `FilePath::toString()`. -/
  toString : Q → String
  /-- `FilePath::displayName()`. -/
  displayName : Q → String
  /-- `FilePath::baseName()`. -/
  baseName : Q → String
  /-- `a.isPrefixOf(b)`. -/
  isPrefixOf : Q → Q → Bool
  /-- `FilePath::fromPathStr(str)`. -/
  fromPathStr : String → Option Q

/-- A `Fm::FilePath` value: `none` is the null path, for which `isValid()` and
`operator bool` are false. -/
abbrev FilePath (Q : Type) := Option Q

/-! ## String helpers -/

/-- The guard and append of `pathForButton`, lines 186-188: a slash is added
when `fullPath` is not empty and does not already end in one. -/
def appendSeparator (fullPath : String) : String :=
  match fullPath.data.getLast? with
  | none => fullPath
  | some c => if c = '/' then fullPath else fullPath ++ "/"

/-- Scan for the characters after the last slash: `cur` is the field being read. -/
def lastSectionAux : List Char → List Char → List Char
  | [], cur => cur
  | c :: cs, cur => if c = '/' then lastSectionAux cs [] else lastSectionAux cs (cur ++ [c])

/-- `QString::section('/', -1)`: the last of the fields that the slashes
separate, empty fields counted. -/
def lastSection (s : String) : String := ⟨lastSectionAux s.data []⟩

/-- Character list of `displayName.replace('&', "&&")`. -/
def doubleAmpersandsAux : List Char → List Char
  | [] => []
  | c :: cs => if c = '&' then '&' :: '&' :: doubleAmpersandsAux cs else c :: doubleAmpersandsAux cs

/-- `displayName.replace(QLatin1Char('&'), QLatin1StringView("&&"))`, line 296. -/
def doubleAmpersands (s : String) : String := ⟨doubleAmpersandsAux s.data⟩

/-- Position of the last `c` at or after position `i`, `best` when there is none. -/
def lastIndexOfAux (c : Char) : List Char → Int → Int → Int
  | [], _, best => best
  | x :: xs, i, best => lastIndexOfAux c xs (i + 1) (if x = c then i else best)

/-- `QString::lastIndexOf` for a one-character needle: the position of its
last occurrence, `-1` when it does not occur. -/
def lastIndexOf (s : String) (c : Char) : Int := lastIndexOfAux c s.data 0 (-1)

/-! ## Fm::PathBar -/

/-- A `PathButton` of the bar. `id` stands for the object's address, `name_`
is the path component given to the constructor, `text` the display name,
`isRoot` the root flag given to the constructor, `checked` the toggle state. -/
structure PathButton where
  id : Nat
  name_ : String
  text : String
  isRoot : Bool
  checked : Bool
  deriving DecidableEq, Repr

/-- An item of `buttonsLayout_`: a widget item holding a button, or the
stretch added by `addStretch`, whose `widget()` is null. -/
inductive LayoutItem where
  | widget (btn : PathButton)
  | spacer
  deriving DecidableEq, Repr

/-- The signals of `PathBar`. -/
inductive Signal (Q : Type) where
  | chdir (path : FilePath Q)
  | middleClickChdir (path : FilePath Q)
  | editingFinished
  deriving DecidableEq, Repr

/-- Slots queued with `QTimer::singleShot(0, ...)`. -/
inductive Deferred where
  | setScrollButtonVisibility
  | ensureToggledVisible
  | setFocus
  deriving DecidableEq, Repr

/-- The state of a `PathBar`. `nextId` is the next fresh object identity,
`emitted` the signals emitted so far, oldest first, `pending` the queued
zero-delay slots. -/
structure PathBar (Q : Type) where
  currentPath_ : FilePath Q
  toggledBtn_ : Option Nat
  tempPathEdit_ : Option String
  buttonsLayout_ : List LayoutItem
  scrollAreaVisible : Bool
  scrollToStartVisible : Bool
  scrollToEndVisible : Bool
  scrollToStartEnabled : Bool
  scrollToEndEnabled : Bool
  updatesEnabled : Bool
  nextId : Nat
  emitted : List (Signal Q)
  pending : List Deferred

/-- The bar right after `PathBar::PathBar`, lines 39-94: no path, no toggled
button, no editor, an empty buttons layout. -/
def PathBar.new (Q : Type) : PathBar Q where
  currentPath_ := none
  toggledBtn_ := none
  tempPathEdit_ := none
  buttonsLayout_ := []
  scrollAreaVisible := true
  scrollToStartVisible := true
  scrollToEndVisible := true
  scrollToStartEnabled := true
  scrollToEndEnabled := true
  updatesEnabled := true
  nextId := 0
  emitted := []
  pending := []

/-- The buttons held by a layout, in layout order. -/
def buttonsOf : List LayoutItem → List PathButton
  | [] => []
  | LayoutItem.widget b :: rest => b :: buttonsOf rest
  | LayoutItem.spacer :: rest => buttonsOf rest

/-- The loop of `pathForButton`, lines 185-193, over the items it visits.
Dereferencing the null widget of a stretch item is the failure `none`. -/
def pathForButtonLoop (btn : Nat) : List LayoutItem → String → Option String
  | [], fullPath => some fullPath
  | LayoutItem.spacer :: _, _ => none
  | LayoutItem.widget elem :: rest, fullPath =>
    let fullPath := appendSeparator fullPath ++ elem.name_
    if elem.id = btn then some fullPath else pathForButtonLoop btn rest fullPath

/-- The items at positions `0 .. count() - 2`, the range of the loops over
`buttonCount = buttonsLayout_->count() - 1`. -/
def buttonItems (layout : List LayoutItem) : List LayoutItem :=
  layout.take (((layout.length : Int) - 1).toNat)

/-- `PathBar::pathForButton`, lines 182-195. -/
def pathForButton {Q : Type} (ops : FilePathOps Q) (bar : PathBar Q) (btn : Nat) :
    Option (FilePath Q) :=
  (pathForButtonLoop btn (buttonItems bar.buttonsLayout_) "").map ops.fromPathStr

/-- `PathBar::onButtonToggled`, lines 197-214, with `sender()` passed as
`sender`. `ensureWidgetVisible` only moves the scroll position, which is not
part of the state. -/
def onButtonToggled {Q : Type} (ops : FilePathOps Q) (bar : PathBar Q) (sender : Nat)
    (checked : Bool) : Option (PathBar Q) :=
  if checked then
    let bar := { bar with toggledBtn_ := some sender }
    match pathForButton ops bar sender with
    | none => none
    | some path =>
      let bar := { bar with currentPath_ := path }
      let bar := { bar with emitted := bar.emitted ++ [Signal.chdir bar.currentPath_] }
      if bar.updatesEnabled then some bar
      else some { bar with pending := bar.pending ++ [Deferred.ensureToggledVisible] }
  else some bar

/-- Whether the button `btn` of the layout is checked. -/
def isChecked (layout : List LayoutItem) (btn : Nat) : Bool :=
  (buttonsOf layout).any (fun b => decide (b.id = btn) && b.checked)

/-- The buttons of the layout, other than `btn`, that are checked. -/
def checkedSiblings (layout : List LayoutItem) (btn : Nat) : List Nat :=
  ((buttonsOf layout).filter (fun b => b.checked && !decide (b.id = btn))).map PathButton.id

/-- The toggle state after `btn` has been checked among auto-exclusive siblings. -/
def checkExclusive (btn : Nat) : LayoutItem → LayoutItem
  | LayoutItem.widget b => LayoutItem.widget { b with checked := decide (b.id = btn) }
  | LayoutItem.spacer => LayoutItem.spacer

/-- Modelled from the spec: `setChecked(true)` on a segment button. `PathButton`
is declared in `pathbar_p.h`, which is not among the sources; the spec has
exactly one button in the active state, so the buttons are checkable and
mutually exclusive. Checking a button that is already checked changes
nothing and emits nothing; otherwise the button becomes the only checked
one, each sibling that lost its check emits `toggled(false)` and the button
then emits `toggled(true)`, both delivered to `onButtonToggled` through the
connection made at line 299. -/
def setChecked {Q : Type} (ops : FilePathOps Q) (bar : PathBar Q) (btn : Nat) :
    Option (PathBar Q) :=
  if isChecked bar.buttonsLayout_ btn then some bar
  else
    let unchecked := checkedSiblings bar.buttonsLayout_ btn
    let bar := { bar with buttonsLayout_ := bar.buttonsLayout_.map (checkExclusive btn) }
    (unchecked.foldlM (fun b old => onButtonToggled ops b old false) bar).bind
      (fun b => onButtonToggled ops b btn true)

/-- The toggle state after `btn` has lost its check. -/
def uncheckItem (btn : Nat) : LayoutItem → LayoutItem
  | LayoutItem.widget b =>
    LayoutItem.widget { b with checked := b.checked && !decide (b.id = btn) }
  | LayoutItem.spacer => LayoutItem.spacer

/-- Modelled from the spec: a segment button losing its check
(`setChecked(false)`). `PathButton` is declared in `pathbar_p.h`, which is
not among the sources; the spec's segment buttons are toggle buttons with an
active state. A button that is not checked stays as it is and emits nothing;
a checked one becomes unchecked and emits `toggled(false)`, delivered to
`onButtonToggled` through the connection made at line 299. -/
def setUnchecked {Q : Type} (ops : FilePathOps Q) (bar : PathBar Q) (btn : Nat) :
    Option (PathBar Q) :=
  if isChecked bar.buttonsLayout_ btn then
    onButtonToggled ops
      { bar with buttonsLayout_ := bar.buttonsLayout_.map (uncheckItem btn) } btn false
  else some bar

/-- Modelled from the spec: a click on the segment button `btn`. `PathButton`
is declared in `pathbar_p.h`, which is not among the sources; the spec's
segment buttons are checkable and mutually exclusive, and what a click does
to such a button is the toolkit's rule. A click toggles the button: an
unchecked button becomes the checked one; the checked button of several
mutually exclusive buttons cannot be unchecked, so a click on it changes
nothing; a button that is alone in the row has no sibling to be exclusive
with, and a click on it when checked unchecks it. A button that is not in the
layout cannot be clicked. -/
def clickButton {Q : Type} (ops : FilePathOps Q) (bar : PathBar Q) (btn : Nat) :
    Option (PathBar Q) :=
  if btn ∈ (buttonsOf bar.buttonsLayout_).map PathButton.id then
    if isChecked bar.buttonsLayout_ btn then
      if (buttonsOf bar.buttonsLayout_).length = 1 then setUnchecked ops bar btn
      else some bar
    else setChecked ops bar btn
  else some bar

/-- The search of `setPath`, lines 244-253, over the items in the order the
loop visits them: the first button whose reconstructed path is the current
path, `some none` when there is none, `none` on a null widget. -/
def findButton {Q : Type} [DecidableEq Q] (ops : FilePathOps Q) (bar : PathBar Q) :
    List LayoutItem → Option (Option Nat)
  | [] => some none
  | LayoutItem.spacer :: _ => none
  | LayoutItem.widget btn :: rest =>
    match pathForButton ops bar btn.id with
    | none => none
    | some path => if path = bar.currentPath_ then some (some btn.id) else findButton ops bar rest

/-- The loop of `setPath`, lines 265-268: items are taken from the front and
deleted until the layout is empty. -/
def takeAll : List LayoutItem → List LayoutItem
  | [] => []
  | _ :: rest => takeAll rest

/-- The loop of `setPath`, lines 272-305, with `fuel` bounding the number of
iterations: `none` when the bound is reached before the loop ends. The result
is the layout and the next fresh identity. -/
def createButtons {Q : Type} [DecidableEq Q] (ops : FilePathOps Q) :
    Nat → FilePath Q → List LayoutItem → Nat → Option (List LayoutItem × Nat)
  | _, none, layout, nextId => some (layout, nextId)
  | 0, some _, _, _ => none
  | fuel + 1, some btnPath, layout, nextId =>
    let parent := ops.parent btnPath
    let isRoot := decide (parent = none) || decide (parent = some btnPath)
    let name := if isRoot then ops.toString btnPath else lastSection (ops.toString btnPath)
    let displayName :=
      doubleAmpersands (if isRoot then ops.displayName btnPath else ops.baseName btnPath)
    let btn : PathButton := ⟨nextId, name, displayName, isRoot, false⟩
    let layout := LayoutItem.widget btn :: layout
    if isRoot then some (layout, nextId + 1)
    else createButtons ops fuel parent layout (nextId + 1)

/-- The end of `setPath`, lines 315-320: the last button, when there is one,
is checked. A null widget at that position is the failure `none`. -/
def checkLastButton {Q : Type} (ops : FilePathOps Q) (bar : PathBar Q) : Option (PathBar Q) :=
  let buttonCount : Int := (bar.buttonsLayout_.length : Int) - 1
  if buttonCount > 0 then
    match bar.buttonsLayout_.get? (buttonCount - 1).toNat with
    | some (LayoutItem.widget lastBtn) => setChecked ops bar lastBtn.id
    | _ => none
  else some bar

/-- The rebuild branch of `setPath`, lines 260-322, run on the bar whose
`currentPath_` is already the new path. `setFixedHeight` is geometry and is
not part of the state. -/
def rebuild {Q : Type} [DecidableEq Q] (ops : FilePathOps Q) (fuel : Nat) (bar : PathBar Q) :
    Option (PathBar Q) :=
  let bar := { bar with updatesEnabled := false }
  let bar := { bar with toggledBtn_ := none }
  let bar := { bar with buttonsLayout_ := takeAll bar.buttonsLayout_ }
  match createButtons ops fuel bar.currentPath_ bar.buttonsLayout_ bar.nextId with
  | none => none
  | some (layout, nextId) =>
    let bar := { bar with buttonsLayout_ := layout ++ [LayoutItem.spacer], nextId := nextId }
    let bar := { bar with pending := bar.pending ++ [Deferred.setScrollButtonVisibility] }
    (checkLastButton ops bar).map (fun b => { b with updatesEnabled := true })

/-- The guard and search of `setPath`, lines 242-254, on the bar whose
`currentPath_` is already the new path: when the old path is valid and the
new path is a prefix of it, the buttons are searched from the last to the
first. `isPrefixOf` on a null path is false. -/
def findExisting {Q : Type} [DecidableEq Q] (ops : FilePathOps Q) (oldPath : FilePath Q)
    (bar : PathBar Q) : Option (Option Nat) :=
  match oldPath, bar.currentPath_ with
  | some o, some c =>
    if ops.isPrefixOf c o then findButton ops bar (buttonItems bar.buttonsLayout_).reverse
    else some none
  | _, _ => some none

/-- `PathBar::setPath`, lines 234-323. `fuel` bounds the iterations of the
button-creating loop; `none` means the call did not complete. -/
def setPath {Q : Type} [DecidableEq Q] (ops : FilePathOps Q) (fuel : Nat) (bar : PathBar Q)
    (path : FilePath Q) : Option (PathBar Q) :=
  if bar.currentPath_ = path then some bar
  else
    let oldPath := bar.currentPath_
    let bar := { bar with currentPath_ := path }
    match findExisting ops oldPath bar with
    | none => none
    | some (some btn) => setChecked ops bar btn
    | some none => rebuild ops fuel bar

/-! ### The path editor and the scroll arrows -/

/-- What the arrow handlers read from the toolkit: `overflow` is
`buttonsLayout_->sizeHint().width() > width()`, the other three are the
value, minimum and maximum of the horizontal scroll bar. They depend on
geometry, which is not part of the bar's state, so they are inputs. -/
structure ScrollView where
  overflow : Bool
  value : Int
  minimum : Int
  maximum : Int
  deriving DecidableEq, Repr

/-- `PathBar::updateScrollButtonVisibility`, lines 154-159. -/
def updateScrollButtonVisibility {Q : Type} (bar : PathBar Q) : PathBar Q :=
  { bar with pending := bar.pending ++ [Deferred.setScrollButtonVisibility] }

/-- `PathBar::setScrollButtonVisibility`, lines 161-180. `setMaximumHeight`
is geometry and is not part of the state. -/
def setScrollButtonVisibility {Q : Type} (bar : PathBar Q) (view : ScrollView) : PathBar Q :=
  let showScrollers := if bar.tempPathEdit_.isSome then false else view.overflow
  let bar := { bar with scrollToStartVisible := showScrollers }
  let bar := { bar with scrollToEndVisible := showScrollers }
  if showScrollers then
    let bar := { bar with scrollToStartEnabled := decide (view.value ≠ view.minimum) }
    { bar with scrollToEndEnabled := decide (view.value ≠ view.maximum) }
  else bar

/-- `PathBar::openEditor`, lines 325-340. The editor is its text; the text of
a null current path is empty. The selection inside the editor and the
selection clipboard are outside the bar's state. -/
def openEditor {Q : Type} (ops : FilePathOps Q) (bar : PathBar Q) : PathBar Q :=
  let bar :=
    if bar.tempPathEdit_.isNone then
      let bar := { bar with tempPathEdit_ := some "" }
      let bar := { bar with scrollAreaVisible := false }
      let bar := { bar with scrollToStartVisible := false }
      let bar := { bar with scrollToEndVisible := false }
      { bar with
        tempPathEdit_ := some (match bar.currentPath_ with
          | some q => ops.toString q
          | none => "") }
    else bar
  { bar with pending := bar.pending ++ [Deferred.setFocus] }

/-- `PathBar::closeEditor`, lines 342-373. `layoutValid` is `layout() !=
nullptr`, false only while the bar is being destroyed. -/
def closeEditor {Q : Type} (bar : PathBar Q) (layoutValid : Bool) (view : ScrollView) :
    PathBar Q :=
  if bar.tempPathEdit_.isNone then bar
  else if !layoutValid then bar
  else
    let bar := { bar with scrollAreaVisible := true }
    let bar :=
      if view.overflow then
        let bar := { bar with scrollToStartVisible := true }
        { bar with scrollToEndVisible := true }
      else bar
    let bar := { bar with tempPathEdit_ := none }
    let bar := updateScrollButtonVisibility bar
    { bar with emitted := bar.emitted ++ [Signal.editingFinished] }

/-- `PathBar::setArrowEnabledState`, lines 384-390; `view.value` is the
argument `value`. -/
def setArrowEnabledState {Q : Type} (bar : PathBar Q) (view : ScrollView) : PathBar Q :=
  if view.overflow then
    let bar := { bar with scrollToStartEnabled := decide (view.value ≠ view.minimum) }
    { bar with scrollToEndEnabled := decide (view.value ≠ view.maximum) }
  else bar

/-- One operation on the bar, with the inputs it takes from outside. -/
inductive BarOp (Q : Type) where
  | openEditor
  | closeEditor (layoutValid : Bool) (view : ScrollView)
  | setPath (fuel : Nat) (path : FilePath Q)
  | setScrollButtonVisibility (view : ScrollView)
  | setArrowEnabledState (view : ScrollView)
  | click (btn : Nat)

/-- The bar after one operation; `none` when the operation does not complete. -/
def applyOp {Q : Type} [DecidableEq Q] (ops : FilePathOps Q) (bar : PathBar Q) :
    BarOp Q → Option (PathBar Q)
  | BarOp.openEditor => some (openEditor ops bar)
  | BarOp.closeEditor layoutValid view => some (closeEditor bar layoutValid view)
  | BarOp.setPath fuel path => setPath ops fuel bar path
  | BarOp.setScrollButtonVisibility view => some (setScrollButtonVisibility bar view)
  | BarOp.setArrowEnabledState view => some (setArrowEnabledState bar view)
  | BarOp.click btn => clickButton ops bar btn

/-- The bar after a sequence of operations, oldest first; `none` when one of
them does not complete. -/
def runOps {Q : Type} [DecidableEq Q] (ops : FilePathOps Q) (bar : PathBar Q) :
    List (BarOp Q) → Option (PathBar Q)
  | [] => some bar
  | op :: rest => (applyOp ops bar op).bind (fun b => runOps ops b rest)

/-! ## Fm::RenameDialog -/

/-- The file attribute of `Fm::FileInfo` that the dialog's state depends on:
its path. Icon, size, modification time and description only fill labels
that no handler reads. -/
structure FileInfo (Q : Type) where
  path : Q

/-- `RenameDialog::Action`; the enumeration is declared in `renamedialog.h`,
these are the four enumerators the source file uses. -/
inductive Action where
  | ActionCancel
  | ActionRename
  | ActionOverwrite
  | ActionIgnore
  deriving DecidableEq, Repr

/-- `QDialog::DialogCode`. -/
inductive DialogCode where
  | Rejected
  | Accepted
  deriving DecidableEq, Repr

/-- The two properties of a push button that the dialog sets. -/
structure PushButton where
  enabled : Bool
  isDefault : Bool
  deriving DecidableEq, Repr

/-- The state of a `RenameDialog`. `fileName` is the text of the line edit,
`selection` its selected range (start, length), `overwriteButton` the button
box's Ok button, `applyToAll` the check box, `labelAsksOtherName` whether the
label shows the self-overwrite message, and `done` the code the dialog was
closed with (`none` while it is open). The visibility of `srcInfo` is the one
`isVisible()` reports while the dialog is on screen. -/
structure RenameDialog where
  action_ : Action
  applyToAll_ : Bool
  oldName_ : String
  newName_ : String
  fileName : String
  selection : Nat × Nat
  renameButton_ : PushButton
  overwriteButton : PushButton
  srcLabelVisible : Bool
  srcIconVisible : Bool
  srcInfoVisible : Bool
  labelAsksOtherName : Bool
  applyToAll : Bool
  done : Option DialogCode
  deriving DecidableEq, Repr

/-- Modelled from the spec: the widgets built by `Ui::RenameDialog::setupUi`
(`ui_rename-dialog.h` is generated from a form that is not among the
sources), together with the member initialisers of lines 36-37. The spec's
initial default state has Overwrite enabled and the default button; the
source labels are shown, the check box is clear, the line edit is empty and
the dialog is open. The Rename button does not exist yet. -/
def setupUi : RenameDialog where
  action_ := Action.ActionIgnore
  applyToAll_ := false
  oldName_ := ""
  newName_ := ""
  fileName := ""
  selection := (0, 0)
  renameButton_ := ⟨false, false⟩
  overwriteButton := ⟨true, true⟩
  srcLabelVisible := true
  srcIconVisible := true
  srcInfoVisible := true
  labelAsksOtherName := false
  applyToAll := false
  done := none

/-- The selection made at lines 91-97, as (start, length): `setSelection(0,
length)` up to the last dot when there is one that is neither the first nor
the last character, `selectAll()` otherwise. -/
def initialSelection (text : String) : Nat × Nat :=
  let length := lastIndexOf text '.'
  if length > 0 ∧ length < (text.length : Int) - 1 then (0, length.toNat)
  else (0, text.length)

/-- `RenameDialog::RenameDialog`, lines 34-121. Positions in the file name
count characters. -/
def RenameDialog.new {Q : Type} [DecidableEq Q] (ops : FilePathOps Q) (src dest : FileInfo Q) :
    RenameDialog :=
  let d := setupUi
  let path := dest.path
  let basename := ops.baseName path
  let d := { d with fileName := basename }
  let d := { d with selection := initialSelection d.fileName }
  let d := { d with oldName_ := basename }
  -- addButton creates an enabled, non-default button; line 108 disables it
  let d := { d with renameButton_ := ⟨true, false⟩ }
  let d := { d with renameButton_ := { d.renameButton_ with enabled := false } }
  if path = src.path then
    { d with
      overwriteButton := { d.overwriteButton with enabled := false }
      srcLabelVisible := false
      srcIconVisible := false
      srcInfoVisible := false
      labelAsksOtherName := true }
  else d

/-- `RenameDialog::onRenameClicked`, lines 127-130. -/
def RenameDialog.onRenameClicked (d : RenameDialog) : RenameDialog :=
  let d := { d with action_ := Action.ActionRename }
  { d with done := some DialogCode.Accepted }

/-- `RenameDialog::onIgnoreClicked`, lines 132-134. -/
def RenameDialog.onIgnoreClicked (d : RenameDialog) : RenameDialog :=
  { d with action_ := Action.ActionIgnore }

/-- `RenameDialog::accept`, lines 137-141: the Overwrite button. -/
def RenameDialog.accept (d : RenameDialog) : RenameDialog :=
  let d := { d with action_ := Action.ActionOverwrite }
  let d := { d with applyToAll_ := d.applyToAll }
  { d with done := some DialogCode.Accepted }

/-- `RenameDialog::reject`, lines 144-147: Cancel, or closing the dialog. -/
def RenameDialog.reject (d : RenameDialog) : RenameDialog :=
  let d := { d with action_ := Action.ActionCancel }
  { d with done := some DialogCode.Rejected }

/-- `RenameDialog::onFileNameChanged`, lines 149-165. -/
def RenameDialog.onFileNameChanged (d : RenameDialog) (newName : String) : RenameDialog :=
  let d := { d with newName_ := newName }
  let hasNewName := decide (d.newName_ ≠ d.oldName_)
  let d := { d with renameButton_ := { d.renameButton_ with enabled := hasNewName } }
  let d := { d with renameButton_ := { d.renameButton_ with isDefault := hasNewName } }
  if !d.srcInfoVisible then d
  else
    let d := { d with overwriteButton := { d.overwriteButton with enabled := !hasNewName } }
    { d with overwriteButton := { d.overwriteButton with isDefault := !hasNewName } }

/-- A press of the Ignore button. Ok and Ignore are both standard buttons of
the dialog's button box (lines 103 and 119), and the toolkit gives the
standard Ignore button the accept role, as it does Ok: a press makes the box
run `accept`, the slot of lines 136-141, which reads the check box and closes
the dialog as accepted. Slots run in the order of their connections: the box
is wired by `setupUi` at line 40, `onIgnoreClicked` is connected at line 120,
so `accept` runs first and `onIgnoreClicked` then replaces the decision. -/
def RenameDialog.ignorePressed (d : RenameDialog) : RenameDialog :=
  (d.accept).onIgnoreClicked

/-- What the user can do to an open dialog. -/
inductive DialogEvent where
  /-- The text of the line edit changes to `name`. -/
  | edit (name : String)
  /-- The apply-to-all check box is set to `checked`. -/
  | check (checked : Bool)
  /-- The Rename button is pressed. -/
  | rename
  /-- The Overwrite button is pressed. -/
  | overwrite
  /-- The Ignore button is pressed. -/
  | ignore
  /-- The Cancel button is pressed or the window is closed. -/
  | cancel
  deriving DecidableEq, Repr

/-- The effect of one event. A disabled button cannot be triggered; `textChanged`
is connected to `onFileNameChanged` at line 99. -/
def RenameDialog.step (d : RenameDialog) : DialogEvent → RenameDialog
  | DialogEvent.edit name => ({ d with fileName := name }).onFileNameChanged name
  | DialogEvent.check checked => { d with applyToAll := checked }
  | DialogEvent.rename => if d.renameButton_.enabled then d.onRenameClicked else d
  | DialogEvent.overwrite => if d.overwriteButton.enabled then d.accept else d
  | DialogEvent.ignore => d.ignorePressed
  | DialogEvent.cancel => d.reject

/-- The dialog after a sequence of events, oldest first. -/
def RenameDialog.run (d : RenameDialog) (events : List DialogEvent) : RenameDialog :=
  events.foldl RenameDialog.step d

/-! ## An example path system -/

/-- Five locations: the local paths `/`, `/home` and `/home/user`, and the
`menu://applications/` root with one entry below it. -/
inductive DemoPath where
  | root
  | home
  | user
  | menu
  | games
  deriving DecidableEq, Repr

/-- Path operations on `DemoPath`. The parent of the `menu://` root is the
root itself, the case line 276 describes. -/
def demoOps : FilePathOps DemoPath where
  parent
    | DemoPath.root => none
    | DemoPath.home => some DemoPath.root
    | DemoPath.user => some DemoPath.home
    | DemoPath.menu => some DemoPath.menu
    | DemoPath.games => some DemoPath.menu
  toString
    | DemoPath.root => "/"
    | DemoPath.home => "/home"
    | DemoPath.user => "/home/user"
    | DemoPath.menu => "menu://applications/"
    | DemoPath.games => "menu://applications/Games"
  displayName
    | DemoPath.root => "/"
    | DemoPath.home => "/home"
    | DemoPath.user => "/home/user"
    | DemoPath.menu => "menu://applications/"
    | DemoPath.games => "menu://applications/Games"
  baseName
    | DemoPath.root => "/"
    | DemoPath.home => "home"
    | DemoPath.user => "user"
    | DemoPath.menu => "/"
    | DemoPath.games => "Games"
  isPrefixOf a b :=
    decide ((a, b) ∈ [(DemoPath.root, DemoPath.home), (DemoPath.root, DemoPath.user),
      (DemoPath.home, DemoPath.user), (DemoPath.menu, DemoPath.games)])
  fromPathStr s :=
    if s = "/" then some DemoPath.root
    else if s = "/home" then some DemoPath.home
    else if s = "/home/user" then some DemoPath.user
    else if s = "menu://applications/" then some DemoPath.menu
    else if s = "menu://applications/Games" then some DemoPath.games
    else none

/-- The bar after `setPath` with `/home/user` on a new bar: the buttons of
`/`, `home` and `user`, the last one checked. -/
def demoBar : PathBar DemoPath where
  currentPath_ := some DemoPath.user
  toggledBtn_ := some 0
  tempPathEdit_ := none
  buttonsLayout_ :=
    [LayoutItem.widget ⟨2, "/", "/", true, false⟩,
      LayoutItem.widget ⟨1, "home", "home", false, false⟩,
      LayoutItem.widget ⟨0, "user", "user", false, true⟩,
      LayoutItem.spacer]
  scrollAreaVisible := true
  scrollToStartVisible := true
  scrollToEndVisible := true
  scrollToStartEnabled := true
  scrollToEndEnabled := true
  updatesEnabled := true
  nextId := 3
  emitted := [Signal.chdir (some DemoPath.user)]
  pending := [Deferred.setScrollButtonVisibility, Deferred.ensureToggledVisible]

/-- Operations on a new bar that end with the path editor open: the path
`/home/user` is set, the arrows are updated for an overflowing row, the
editor is opened, and both arrow handlers and `openEditor` run once more. -/
def demoSteps : List (BarOp DemoPath) :=
  [BarOp.setPath 3 (some DemoPath.user),
    BarOp.setScrollButtonVisibility ⟨true, 0, 0, 10⟩,
    BarOp.openEditor,
    BarOp.setScrollButtonVisibility ⟨true, 5, 0, 10⟩,
    BarOp.setArrowEnabledState ⟨true, 5, 0, 10⟩,
    BarOp.openEditor]

/-- The bar after `setPath` with `/` on a new bar: the root button alone,
checked. -/
def demoRootBar : PathBar DemoPath where
  currentPath_ := some DemoPath.root
  toggledBtn_ := some 0
  tempPathEdit_ := none
  buttonsLayout_ := [LayoutItem.widget ⟨0, "/", "/", true, true⟩, LayoutItem.spacer]
  scrollAreaVisible := true
  scrollToStartVisible := true
  scrollToEndVisible := true
  scrollToStartEnabled := true
  scrollToEndEnabled := true
  updatesEnabled := true
  nextId := 1
  emitted := [Signal.chdir (some DemoPath.root)]
  pending := [Deferred.setScrollButtonVisibility, Deferred.ensureToggledVisible]

/-- The bar `demoRootBar` after a click on its one button: the button is
unchecked, everything else is as before. -/
def demoRootOff : PathBar DemoPath :=
  { demoRootBar with
    buttonsLayout_ := [LayoutItem.widget ⟨0, "/", "/", true, false⟩, LayoutItem.spacer] }

/-! ## Predicates used by the theorems -/

/-- What every state of a self-overwrite dialog satisfies. -/
def SelfOverwriteInv (d : RenameDialog) : Prop :=
  d.srcInfoVisible = false ∧ d.overwriteButton.enabled = false ∧
    d.action_ ≠ Action.ActionOverwrite

/-- What every state of a dialog with distinct paths keeps from construction. -/
def DistinctInv (oldName : String) (d : RenameDialog) : Prop :=
  d.srcInfoVisible = true ∧ d.oldName_ = oldName

/-- The root test of `setPath`, line 278: no valid parent, or a parent equal
to the path itself. -/
def isRootPath {Q : Type} [DecidableEq Q] (ops : FilePathOps Q) (q : Q) : Bool :=
  decide (ops.parent q = none) || decide (ops.parent q = some q)

/-- The paths from `q` up to its root, `q` first, when following parents
reaches a root in fewer than `n` steps; `none` otherwise. -/
def parentChain {Q : Type} [DecidableEq Q] (ops : FilePathOps Q) : Nat → Q → Option (List Q)
  | 0, _ => none
  | n + 1, q =>
    if isRootPath ops q then some [q]
    else
      match ops.parent q with
      | none => some [q]
      | some p => (parentChain ops n p).map (fun l => q :: l)

/-- The name a segment button is given for the path `q`, lines 279-294. -/
def segmentName {Q : Type} [DecidableEq Q] (ops : FilePathOps Q) (q : Q) : String :=
  if isRootPath ops q then ops.toString q else lastSection (ops.toString q)

/-- The button `setPath` creates for the path `q`, line 297. -/
def mkButton {Q : Type} [DecidableEq Q] (ops : FilePathOps Q) (id : Nat) (q : Q) : PathButton :=
  ⟨id, segmentName ops q,
    doubleAmpersands (if isRootPath ops q then ops.displayName q else ops.baseName q),
    isRootPath ops q, false⟩

/-- The buttons created for a chain of paths, leaf first, each paired with
its path; identities are handed out in creation order. -/
def newSegments {Q : Type} [DecidableEq Q] (ops : FilePathOps Q) :
    Nat → List Q → List (PathButton × Q)
  | _, [] => []
  | id, q :: rest => (mkButton ops id q, q) :: newSegments ops (id + 1) rest

/-- The string `pathForButton` builds from the names it visits. -/
def joinNames (fullPath : String) (names : List String) : String :=
  names.foldl (fun acc name => appendSeparator acc ++ name) fullPath

/-- What the bar needs from the path abstraction: every parent chain reaches
a root, the string of a path below a root is the string of its parent, a
separating slash unless the parent's string ends in one, and the last
component of its own string, and `fromPathStr` reads back what `toString`
writes. -/
structure Lawful {Q : Type} [DecidableEq Q] (ops : FilePathOps Q) : Prop where
  reaches_root : ∀ q, ∃ n, (parentChain ops n q).isSome = true
  toString_child : ∀ q p, ops.parent q = some p → p ≠ q →
    ops.toString q = appendSeparator (ops.toString p) ++ lastSection (ops.toString q)
  fromPathStr_toString : ∀ q, ops.fromPathStr (ops.toString q) = some q

/-- The prefix test only holds between a path and one of its ancestors. -/
def PrefixIsAncestor {Q : Type} [DecidableEq Q] (ops : FilePathOps Q) : Prop :=
  ∀ a b, ops.isPrefixOf a b = true → ∃ n l, parentChain ops n b = some l ∧ a ∈ l

/-- The layout shows the segments `segs` (leaf first, each button with its
path): the paths are a parent chain, the layout is the buttons from root to
leaf followed by the spacer, each button has the name of its path, and the
button identities are distinct and below `nextId`. -/
def Chained {Q : Type} [DecidableEq Q] (ops : FilePathOps Q) (layout : List LayoutItem)
    (nextId : Nat) (segs : List (PathButton × Q)) : Prop :=
  (∃ n p, parentChain ops n p = some (segs.map Prod.snd)) ∧
  layout = segs.reverse.map (fun s => LayoutItem.widget s.1) ++ [LayoutItem.spacer] ∧
  (∀ s ∈ segs, s.1.name_ = segmentName ops s.2) ∧
  (segs.map (fun s => s.1.id)).Nodup ∧
  (∀ s ∈ segs, s.1.id < nextId)

/-- A segment after the button `btn` has been checked among its siblings. -/
def checkSegment {Q : Type} (btn : Nat) (s : PathButton × Q) : PathButton × Q :=
  ({ s.1 with checked := decide (s.1.id = btn) }, s.2)

/-- The invariant of the bar: either it shows no path and holds no button,
or its layout is a chain of segments of which exactly one is checked, that
one being the toggled button and the segment of the current path. -/
def BarInv {Q : Type} [DecidableEq Q] (ops : FilePathOps Q) (bar : PathBar Q) : Prop :=
  (bar.currentPath_ = none ∧
    (bar.buttonsLayout_ = [] ∨ bar.buttonsLayout_ = [LayoutItem.spacer])) ∨
  ∃ segs s, Chained ops bar.buttonsLayout_ bar.nextId segs ∧ s ∈ segs ∧
    s.1.checked = true ∧ bar.currentPath_ = some s.2 ∧ bar.toggledBtn_ = some s.1.id ∧
    ∀ t ∈ segs, t.1.checked = true → t = s

/-- A segment after the button `btn` has lost its check. -/
def uncheckSegment {Q : Type} (btn : Nat) (s : PathButton × Q) : PathButton × Q :=
  ({ s.1 with checked := s.1.checked && !decide (s.1.id = btn) }, s.2)

/-- The invariant of the bar when buttons may also have been toggled off:
either it shows no path and holds no button, or its layout is a chain of
segments, the toggled button is the segment of the current path, and no
other button is checked. -/
def BarInvW {Q : Type} [DecidableEq Q] (ops : FilePathOps Q) (bar : PathBar Q) : Prop :=
  (bar.currentPath_ = none ∧
    (bar.buttonsLayout_ = [] ∨ bar.buttonsLayout_ = [LayoutItem.spacer])) ∨
  ∃ segs s, Chained ops bar.buttonsLayout_ bar.nextId segs ∧ s ∈ segs ∧
    bar.currentPath_ = some s.2 ∧ bar.toggledBtn_ = some s.1.id ∧
    ∀ t ∈ segs, t.1.checked = true → t = s

/-- While the path editor is open both scroll arrows are hidden. -/
def EditorHidesArrows {Q : Type} (bar : PathBar Q) : Prop :=
  bar.tempPathEdit_ ≠ none → bar.scrollToStartVisible = false ∧ bar.scrollToEndVisible = false

/-- The editor and the visibility of the arrows are the same in both bars. -/
def SameArrows {Q : Type} (bar bar2 : PathBar Q) : Prop :=
  bar2.tempPathEdit_ = bar.tempPathEdit_ ∧
  bar2.scrollToStartVisible = bar.scrollToStartVisible ∧
  bar2.scrollToEndVisible = bar.scrollToEndVisible

/-- The bar states reachable from a new bar through `setPath` calls and
button toggles: clicks on segment buttons, which toggle a button on or, for
a button alone in the row, off; and any checked button being toggled off,
however that comes about. -/
inductive Reachable {Q : Type} [DecidableEq Q] (ops : FilePathOps Q) : PathBar Q → Prop where
  | new : Reachable ops (PathBar.new Q)
  | setPath (bar bar2 : PathBar Q) (fuel : Nat) (path : FilePath Q) :
      Reachable ops bar → setPath ops fuel bar path = some bar2 → Reachable ops bar2
  | click (bar bar2 : PathBar Q) (btn : Nat) :
      Reachable ops bar → clickButton ops bar btn = some bar2 → Reachable ops bar2
  | toggleOff (bar bar2 : PathBar Q) (btn : Nat) :
      Reachable ops bar → setUnchecked ops bar btn = some bar2 → Reachable ops bar2

end Fm

/-! # Theorems -/

namespace Fm

/-! ## RenameDialog: the buttons and the decision -/

theorem selfOverwriteInv_new {Q : Type} [DecidableEq Q] (ops : FilePathOps Q)
    (src dest : FileInfo Q) (h : src.path = dest.path) :
    SelfOverwriteInv (RenameDialog.new ops src dest) := by
  simp [SelfOverwriteInv, RenameDialog.new, setupUi, h]

theorem selfOverwriteInv_onFileNameChanged (d : RenameDialog) (name : String)
    (h : SelfOverwriteInv d) : SelfOverwriteInv (d.onFileNameChanged name) := by
  obtain ⟨h1, h2, h3⟩ := h
  simp [SelfOverwriteInv, RenameDialog.onFileNameChanged, h1, h2, h3]

theorem selfOverwriteInv_step (d : RenameDialog) (e : DialogEvent)
    (h : SelfOverwriteInv d) : SelfOverwriteInv (d.step e) := by
  obtain ⟨h1, h2, h3⟩ := h
  cases e with
  | edit name =>
    exact selfOverwriteInv_onFileNameChanged _ name ⟨h1, h2, h3⟩
  | check checked => exact ⟨h1, h2, h3⟩
  | rename =>
    simp only [RenameDialog.step]
    split
    · simp [SelfOverwriteInv, RenameDialog.onRenameClicked, h1, h2]
    · exact ⟨h1, h2, h3⟩
  | overwrite =>
    simp only [RenameDialog.step, h2]
    exact ⟨h1, h2, h3⟩
  | ignore =>
    simp [SelfOverwriteInv, RenameDialog.step, RenameDialog.ignorePressed,
      RenameDialog.onIgnoreClicked, RenameDialog.accept, h1, h2]
  | cancel =>
    simp [SelfOverwriteInv, RenameDialog.step, RenameDialog.reject, h1, h2]

theorem selfOverwriteInv_run (events : List DialogEvent) (d : RenameDialog)
    (h : SelfOverwriteInv d) : SelfOverwriteInv (d.run events) := by
  induction events generalizing d with
  | nil => exact h
  | cons e rest ih => exact ih (d.step e) (selfOverwriteInv_step d e h)

theorem selfOverwriteInv_edits (names : List String) (d : RenameDialog)
    (h : SelfOverwriteInv d) :
    SelfOverwriteInv (names.foldl RenameDialog.onFileNameChanged d) := by
  induction names generalizing d with
  | nil => exact h
  | cons n rest ih => exact ih _ (selfOverwriteInv_onFileNameChanged d n h)

/-- C5. In a dialog constructed with a source path equal to the destination
path, the Overwrite button is disabled after construction, stays disabled
after every sequence of `onFileNameChanged` calls, and after every sequence
of user events (in which Overwrite acts only while its button is enabled) the
button is still disabled and the decision is not Overwrite. -/
theorem RenameDialog.self_overwrite_unreachable {Q : Type} [DecidableEq Q]
    (ops : FilePathOps Q) (src dest : FileInfo Q) (h : src.path = dest.path)
    (names : List String) (events : List DialogEvent) :
    (RenameDialog.new ops src dest).overwriteButton.enabled = false ∧
    (names.foldl RenameDialog.onFileNameChanged
      (RenameDialog.new ops src dest)).overwriteButton.enabled = false ∧
    ((RenameDialog.new ops src dest).run events).overwriteButton.enabled = false ∧
    ((RenameDialog.new ops src dest).run events).action_ ≠ Action.ActionOverwrite := by
  have h0 := selfOverwriteInv_new ops src dest h
  exact ⟨h0.2.1, (selfOverwriteInv_edits names _ h0).2.1,
    (selfOverwriteInv_run events _ h0).2.1, (selfOverwriteInv_run events _ h0).2.2⟩

theorem RenameDialog.self_overwrite_unreachable_witness :
    (FileInfo.mk DemoPath.user).path = (FileInfo.mk DemoPath.user).path ∧
    (RenameDialog.new demoOps ⟨DemoPath.user⟩ ⟨DemoPath.user⟩).overwriteButton.enabled = false ∧
    (["other", "user"].foldl RenameDialog.onFileNameChanged
      (RenameDialog.new demoOps ⟨DemoPath.user⟩ ⟨DemoPath.user⟩)).overwriteButton.enabled
        = false ∧
    ((RenameDialog.new demoOps ⟨DemoPath.user⟩ ⟨DemoPath.user⟩).run
      [DialogEvent.edit "other", DialogEvent.overwrite, DialogEvent.edit "user",
        DialogEvent.overwrite]).overwriteButton.enabled = false ∧
    ((RenameDialog.new demoOps ⟨DemoPath.user⟩ ⟨DemoPath.user⟩).run
      [DialogEvent.edit "other", DialogEvent.overwrite, DialogEvent.edit "user",
        DialogEvent.overwrite]).action_ ≠ Action.ActionOverwrite :=
  ⟨rfl, RenameDialog.self_overwrite_unreachable demoOps ⟨DemoPath.user⟩ ⟨DemoPath.user⟩ rfl
    ["other", "user"]
    [DialogEvent.edit "other", DialogEvent.overwrite, DialogEvent.edit "user",
      DialogEvent.overwrite]⟩

theorem distinctInv_new {Q : Type} [DecidableEq Q] (ops : FilePathOps Q)
    (src dest : FileInfo Q) (h : src.path ≠ dest.path) :
    DistinctInv (ops.baseName dest.path) (RenameDialog.new ops src dest) := by
  have h2 : ¬ dest.path = src.path := fun e => h e.symm
  simp [DistinctInv, RenameDialog.new, setupUi, h2]

theorem distinctInv_step (oldName : String) (d : RenameDialog) (e : DialogEvent)
    (h : DistinctInv oldName d) : DistinctInv oldName (d.step e) := by
  obtain ⟨h1, h2⟩ := h
  cases e with
  | edit name => simp [DistinctInv, RenameDialog.step, RenameDialog.onFileNameChanged, h1, h2]
  | check checked => exact ⟨h1, h2⟩
  | rename =>
    simp only [RenameDialog.step]
    split
    · simp [DistinctInv, RenameDialog.onRenameClicked, h1, h2]
    · exact ⟨h1, h2⟩
  | overwrite =>
    simp only [RenameDialog.step]
    split
    · simp [DistinctInv, RenameDialog.accept, h1, h2]
    · exact ⟨h1, h2⟩
  | ignore =>
    simp [DistinctInv, RenameDialog.step, RenameDialog.ignorePressed,
      RenameDialog.onIgnoreClicked, RenameDialog.accept, h1, h2]
  | cancel => simp [DistinctInv, RenameDialog.step, RenameDialog.reject, h1, h2]

theorem distinctInv_run (oldName : String) (events : List DialogEvent) (d : RenameDialog)
    (h : DistinctInv oldName d) : DistinctInv oldName (d.run events) := by
  induction events generalizing d with
  | nil => exact h
  | cons e rest ih => exact ih (d.step e) (distinctInv_step oldName d e h)

theorem onFileNameChanged_buttons (oldName : String) (d : RenameDialog) (n : String)
    (h : DistinctInv oldName d) :
    (d.onFileNameChanged n).renameButton_ = ⟨decide (n ≠ oldName), decide (n ≠ oldName)⟩ ∧
    (d.onFileNameChanged n).overwriteButton = ⟨decide (n = oldName), decide (n = oldName)⟩ := by
  obtain ⟨h1, h2⟩ := h
  simp [RenameDialog.onFileNameChanged, h1, h2]

theorem new_buttons {Q : Type} [DecidableEq Q] (ops : FilePathOps Q)
    (src dest : FileInfo Q) (h : src.path ≠ dest.path) :
    (RenameDialog.new ops src dest).renameButton_ = ⟨false, false⟩ ∧
    (RenameDialog.new ops src dest).overwriteButton = ⟨true, true⟩ ∧
    (RenameDialog.new ops src dest).oldName_ = ops.baseName dest.path := by
  have h2 : ¬ dest.path = src.path := fun e => h e.symm
  simp [RenameDialog.new, setupUi, h2]

/-- C6. In a dialog whose source and destination paths differ, in every state
reached by user events, `onFileNameChanged n` leaves the Rename button
enabled and default exactly when `n` differs from the original file name (the
destination's base name) and the Overwrite button enabled and default exactly
when `n` is the original name; and when the name typed is the original one,
both buttons are as in the freshly constructed dialog: Rename disabled and not
default, Overwrite enabled and default. -/
theorem RenameDialog.buttons_follow_name {Q : Type} [DecidableEq Q]
    (ops : FilePathOps Q) (src dest : FileInfo Q) (h : src.path ≠ dest.path)
    (events : List DialogEvent) (n : String) :
    ((((RenameDialog.new ops src dest).run events).onFileNameChanged n).renameButton_.enabled
        = true ↔ n ≠ ops.baseName dest.path) ∧
    ((((RenameDialog.new ops src dest).run events).onFileNameChanged n).renameButton_.isDefault
        = true ↔ n ≠ ops.baseName dest.path) ∧
    ((((RenameDialog.new ops src dest).run events).onFileNameChanged n).overwriteButton.enabled
        = true ↔ n = ops.baseName dest.path) ∧
    ((((RenameDialog.new ops src dest).run events).onFileNameChanged n).overwriteButton.isDefault
        = true ↔ n = ops.baseName dest.path) ∧
    (RenameDialog.new ops src dest).oldName_ = ops.baseName dest.path ∧
    (((RenameDialog.new ops src dest).run events).onFileNameChanged
        (ops.baseName dest.path)).renameButton_ = (RenameDialog.new ops src dest).renameButton_ ∧
    (((RenameDialog.new ops src dest).run events).onFileNameChanged
        (ops.baseName dest.path)).overwriteButton
        = (RenameDialog.new ops src dest).overwriteButton ∧
    (RenameDialog.new ops src dest).renameButton_ = ⟨false, false⟩ ∧
    (RenameDialog.new ops src dest).overwriteButton = ⟨true, true⟩ := by
  have hinv := distinctInv_run _ events _ (distinctInv_new ops src dest h)
  obtain ⟨hr, ho⟩ := onFileNameChanged_buttons _ _ n hinv
  obtain ⟨hr0, ho0⟩ := onFileNameChanged_buttons _ _ (ops.baseName dest.path) hinv
  obtain ⟨hn1, hn2, hn3⟩ := new_buttons ops src dest h
  refine ⟨?_, ?_, ?_, ?_, hn3, ?_, ?_, hn1, hn2⟩
  · rw [hr]; simp
  · rw [hr]; simp
  · rw [ho]; simp
  · rw [ho]; simp
  · rw [hr0, hn1]; simp
  · rw [ho0, hn2]; simp

theorem RenameDialog.buttons_follow_name_witness :
    (FileInfo.mk DemoPath.home).path ≠ (FileInfo.mk DemoPath.user).path ∧
    (((RenameDialog.new demoOps ⟨DemoPath.home⟩ ⟨DemoPath.user⟩).run
        [DialogEvent.edit "a", DialogEvent.check true]).onFileNameChanged
        "user").renameButton_ = ⟨false, false⟩ ∧
    (((RenameDialog.new demoOps ⟨DemoPath.home⟩ ⟨DemoPath.user⟩).run
        [DialogEvent.edit "a", DialogEvent.check true]).onFileNameChanged
        "user").overwriteButton = ⟨true, true⟩ :=
  have h : (FileInfo.mk DemoPath.home).path ≠ (FileInfo.mk DemoPath.user).path := by decide
  have t := RenameDialog.buttons_follow_name demoOps ⟨DemoPath.home⟩ ⟨DemoPath.user⟩ h
    [DialogEvent.edit "a", DialogEvent.check true] "user"
  ⟨h, t.2.2.2.2.2.1.trans t.2.2.2.2.2.2.2.1, t.2.2.2.2.2.2.1.trans t.2.2.2.2.2.2.2.2⟩

/-- C7, as the code has it. From every dialog state, once an Ignore press has
been handled, that is after the button box has run `accept` and the slot
`onIgnoreClicked` has run, the decision is Ignore, the dialog is closed as
accepted, and the apply-to-all flag is the value the check box shows. -/
theorem RenameDialog.ignore_resolves (d : RenameDialog) :
    ((d.accept).onIgnoreClicked).action_ = Action.ActionIgnore ∧
    ((d.accept).onIgnoreClicked).done = some DialogCode.Accepted ∧
    ((d.accept).onIgnoreClicked).applyToAll_ = d.applyToAll ∧
    d.step DialogEvent.ignore = (d.accept).onIgnoreClicked := by
  simp [RenameDialog.accept, RenameDialog.onIgnoreClicked, RenameDialog.step,
    RenameDialog.ignorePressed]

/-- C7 as stated fails: on a fresh dialog whose check box has been set, an
Ignore press closes the dialog as accepted, not through `reject`, and the
apply-to-all flag, false before the press, is read from the check box and
becomes true. -/
theorem RenameDialog.ignore_reads_check_box :
    ((RenameDialog.new demoOps ⟨DemoPath.home⟩ ⟨DemoPath.user⟩).step
      (DialogEvent.check true)).applyToAll_ = false ∧
    (((RenameDialog.new demoOps ⟨DemoPath.home⟩ ⟨DemoPath.user⟩).step
      (DialogEvent.check true)).step DialogEvent.ignore).applyToAll_ = true ∧
    (((RenameDialog.new demoOps ⟨DemoPath.home⟩ ⟨DemoPath.user⟩).step
      (DialogEvent.check true)).step DialogEvent.ignore).done = some DialogCode.Accepted ∧
    (((RenameDialog.new demoOps ⟨DemoPath.home⟩ ⟨DemoPath.user⟩).step
      (DialogEvent.check true)).step DialogEvent.ignore).action_ = Action.ActionIgnore := by
  decide

/-- The order of the two slots of an Ignore press matters: were `accept` run
after `onIgnoreClicked`, the decision would be Overwrite. -/
theorem RenameDialog.accept_after_onIgnoreClicked (d : RenameDialog) :
    ((d.onIgnoreClicked).accept).action_ = Action.ActionOverwrite := by
  simp [RenameDialog.accept, RenameDialog.onIgnoreClicked]

/-- C8. From every dialog state, `reject` (run by the Cancel button and by
closing the window) leaves the decision Cancel and the dialog closed with the
result Rejected. -/
theorem RenameDialog.reject_cancels (d : RenameDialog) :
    (d.reject).action_ = Action.ActionCancel ∧
    (d.reject).done = some DialogCode.Rejected ∧
    d.step DialogEvent.cancel = d.reject := by
  simp [RenameDialog.reject, RenameDialog.step]

theorem applyToAll_step (d : RenameDialog) (e : DialogEvent) (h : e ≠ DialogEvent.overwrite)
    (h2 : e ≠ DialogEvent.ignore) : (d.step e).applyToAll_ = d.applyToAll_ := by
  cases e with
  | edit name =>
    simp only [RenameDialog.step, RenameDialog.onFileNameChanged]
    split <;> rfl
  | check checked => rfl
  | rename =>
    simp only [RenameDialog.step]
    split <;> rfl
  | overwrite => exact absurd rfl h
  | ignore => exact absurd rfl h2
  | cancel => rfl

theorem applyToAll_run (events : List DialogEvent) (d : RenameDialog)
    (h : DialogEvent.overwrite ∉ events) (h2 : DialogEvent.ignore ∉ events) :
    (d.run events).applyToAll_ = d.applyToAll_ := by
  induction events generalizing d with
  | nil => rfl
  | cons e rest ih =>
    have he : e ≠ DialogEvent.overwrite := fun c => h (by simp [c])
    have hr : DialogEvent.overwrite ∉ rest := fun c => h (by simp [c])
    have he2 : e ≠ DialogEvent.ignore := fun c => h2 (by simp [c])
    have hr2 : DialogEvent.ignore ∉ rest := fun c => h2 (by simp [c])
    exact (ih (d.step e) hr hr2).trans (applyToAll_step d e he he2)

theorem new_applyToAll {Q : Type} [DecidableEq Q] (ops : FilePathOps Q)
    (src dest : FileInfo Q) :
    (RenameDialog.new ops src dest).applyToAll_ = false ∧
    (RenameDialog.new ops src dest).action_ = Action.ActionIgnore ∧
    (RenameDialog.new ops src dest).done = none := by
  simp only [RenameDialog.new, setupUi]
  split <;> simp

/-- C9, as the code has it. `accept` sets the apply-to-all flag to the check
box's value together with the decision Overwrite; `onRenameClicked`,
`onIgnoreClicked`, `reject` and `onFileNameChanged` leave the flag unchanged;
`accept` runs on an Overwrite press and, before `onIgnoreClicked`, on an
Ignore press; and after every sequence of events on a fresh dialog that
contains neither an Overwrite press nor an Ignore press the flag is false,
whatever was done to the check box. -/
theorem RenameDialog.applyToAll_latched {Q : Type} [DecidableEq Q]
    (ops : FilePathOps Q) (src dest : FileInfo Q) (events : List DialogEvent)
    (h : DialogEvent.overwrite ∉ events) (h2 : DialogEvent.ignore ∉ events) :
    (∀ d : RenameDialog, (d.accept).applyToAll_ = d.applyToAll ∧
      (d.accept).action_ = Action.ActionOverwrite) ∧
    (∀ d : RenameDialog, (d.onRenameClicked).applyToAll_ = d.applyToAll_) ∧
    (∀ d : RenameDialog, (d.onIgnoreClicked).applyToAll_ = d.applyToAll_) ∧
    (∀ d : RenameDialog, (d.reject).applyToAll_ = d.applyToAll_) ∧
    (∀ (d : RenameDialog) (n : String), (d.onFileNameChanged n).applyToAll_ = d.applyToAll_) ∧
    (∀ d : RenameDialog, d.step DialogEvent.ignore = (d.accept).onIgnoreClicked) ∧
    (∀ d : RenameDialog, d.overwriteButton.enabled = true →
      d.step DialogEvent.overwrite = d.accept) ∧
    ((RenameDialog.new ops src dest).run events).applyToAll_ = false := by
  refine ⟨fun d => ⟨rfl, rfl⟩, fun d => rfl, fun d => rfl, fun d => rfl, ?_, fun d => rfl,
    ?_, ?_⟩
  · intro d n
    simp only [RenameDialog.onFileNameChanged]
    split <;> rfl
  · intro d hd
    simp [RenameDialog.step, hd]
  · rw [applyToAll_run events _ h h2]
    exact (new_applyToAll ops src dest).1

theorem RenameDialog.applyToAll_latched_witness :
    DialogEvent.overwrite ∉ [DialogEvent.check true, DialogEvent.edit "other",
      DialogEvent.rename] ∧
    DialogEvent.ignore ∉ [DialogEvent.check true, DialogEvent.edit "other",
      DialogEvent.rename] ∧
    ((RenameDialog.new demoOps ⟨DemoPath.home⟩ ⟨DemoPath.user⟩).run
      [DialogEvent.check true, DialogEvent.edit "other", DialogEvent.rename]).applyToAll_
        = false :=
  have h : DialogEvent.overwrite ∉ [DialogEvent.check true, DialogEvent.edit "other",
      DialogEvent.rename] := by decide
  have h2 : DialogEvent.ignore ∉ [DialogEvent.check true, DialogEvent.edit "other",
      DialogEvent.rename] := by decide
  ⟨h, h2,
    (RenameDialog.applyToAll_latched demoOps ⟨DemoPath.home⟩ ⟨DemoPath.user⟩ _ h
      h2).2.2.2.2.2.2.2⟩

/-- C9 as stated fails: a sequence of events without an Overwrite press, the
check box set and then Ignore pressed, leaves the apply-to-all flag true. -/
theorem RenameDialog.ignore_latches_applyToAll :
    DialogEvent.overwrite ∉ [DialogEvent.check true, DialogEvent.ignore] ∧
    ((RenameDialog.new demoOps ⟨DemoPath.home⟩ ⟨DemoPath.user⟩).run
      [DialogEvent.check true, DialogEvent.ignore]).applyToAll_ = true := by
  decide

/-- C10, as the code has it. A freshly constructed dialog is open, its flag
is false and its recorded decision is Ignore, the value the constructor
gives `action_`; editing the name or changing the check box leaves the
decision and the open state as they are, and each button press or close
records its own decision: Rename, Overwrite (when enabled), Ignore, Cancel. -/
theorem RenameDialog.initial_decision {Q : Type} [DecidableEq Q]
    (ops : FilePathOps Q) (src dest : FileInfo Q) :
    (RenameDialog.new ops src dest).action_ = Action.ActionIgnore ∧
    (RenameDialog.new ops src dest).applyToAll_ = false ∧
    (RenameDialog.new ops src dest).done = none ∧
    (∀ (d : RenameDialog) (n : String),
      (d.step (DialogEvent.edit n)).action_ = d.action_ ∧
      (d.step (DialogEvent.edit n)).done = d.done) ∧
    (∀ (d : RenameDialog) (b : Bool),
      (d.step (DialogEvent.check b)).action_ = d.action_ ∧
      (d.step (DialogEvent.check b)).done = d.done) ∧
    (∀ d : RenameDialog, (d.onRenameClicked).action_ = Action.ActionRename) ∧
    (∀ d : RenameDialog, (d.accept).action_ = Action.ActionOverwrite) ∧
    (∀ d : RenameDialog, (d.step DialogEvent.ignore).action_ = Action.ActionIgnore) ∧
    (∀ d : RenameDialog, (d.step DialogEvent.cancel).action_ = Action.ActionCancel) := by
  obtain ⟨h1, h2, h3⟩ := new_applyToAll ops src dest
  refine ⟨h2, h1, h3, ?_, fun d b => ⟨rfl, rfl⟩, fun d => rfl, fun d => rfl, fun d => rfl,
    fun d => rfl⟩
  intro d n
  simp only [RenameDialog.step, RenameDialog.onFileNameChanged]
  split <;> exact ⟨rfl, rfl⟩

/-- C10 as stated fails: the decision recorded in a freshly constructed
dialog is one of the four, namely Ignore. -/
theorem RenameDialog.initial_decision_not_unresolved :
    ¬ ((RenameDialog.new demoOps ⟨DemoPath.home⟩ ⟨DemoPath.user⟩).action_
          ≠ Action.ActionRename ∧
        (RenameDialog.new demoOps ⟨DemoPath.home⟩ ⟨DemoPath.user⟩).action_
          ≠ Action.ActionOverwrite ∧
        (RenameDialog.new demoOps ⟨DemoPath.home⟩ ⟨DemoPath.user⟩).action_
          ≠ Action.ActionIgnore ∧
        (RenameDialog.new demoOps ⟨DemoPath.home⟩ ⟨DemoPath.user⟩).action_
          ≠ Action.ActionCancel) := by
  decide

/-! ## PathBar: chains of segment buttons -/

theorem buttonItems_nil : buttonItems [] = [] := rfl

theorem buttonItems_append_spacer (l : List LayoutItem) (x : LayoutItem) :
    buttonItems (l ++ [x]) = l := by
  simp [buttonItems]

theorem buttonItems_map (f : LayoutItem → LayoutItem) (l : List LayoutItem) :
    buttonItems (l.map f) = (buttonItems l).map f := by
  simp [buttonItems, List.map_take]

theorem pathForButtonLoop_map_checkExclusive (x btn : Nat) (l : List LayoutItem) (acc : String) :
    pathForButtonLoop btn (l.map (checkExclusive x)) acc = pathForButtonLoop btn l acc := by
  induction l generalizing acc with
  | nil => rfl
  | cons item rest ih =>
    cases item with
    | spacer => rfl
    | widget b =>
      simp only [List.map_cons, checkExclusive, pathForButtonLoop]
      rw [ih]

theorem pathForButton_layout {Q : Type} (ops : FilePathOps Q) (bar bar2 : PathBar Q) (btn : Nat)
    (h : bar2.buttonsLayout_ = bar.buttonsLayout_) :
    pathForButton ops bar2 btn = pathForButton ops bar btn := by
  simp [pathForButton, h]

theorem pathForButton_checkExclusive {Q : Type} (ops : FilePathOps Q) (bar bar2 : PathBar Q)
    (x btn : Nat) (h : bar2.buttonsLayout_ = bar.buttonsLayout_.map (checkExclusive x)) :
    pathForButton ops bar2 btn = pathForButton ops bar btn := by
  simp [pathForButton, h, buttonItems_map, pathForButtonLoop_map_checkExclusive]

theorem onButtonToggled_false {Q : Type} (ops : FilePathOps Q) (bar : PathBar Q) (btn : Nat) :
    onButtonToggled ops bar btn false = some bar := by
  simp [onButtonToggled]

theorem foldlM_onButtonToggled_false {Q : Type} (ops : FilePathOps Q) (l : List Nat)
    (bar : PathBar Q) :
    l.foldlM (fun b old => onButtonToggled ops b old false) bar = some bar := by
  have hf : (fun (b : PathBar Q) (old : Nat) => onButtonToggled ops b old false)
      = fun b _ => some b := by
    funext b old; exact onButtonToggled_false ops b old
  rw [hf]
  induction l generalizing bar with
  | nil => rfl
  | cons x rest ih => simpa [List.foldlM] using ih bar

theorem setChecked_eq {Q : Type} (ops : FilePathOps Q) (bar : PathBar Q) (btn : Nat) :
    setChecked ops bar btn =
      if isChecked bar.buttonsLayout_ btn then some bar
      else onButtonToggled ops
        { bar with buttonsLayout_ := bar.buttonsLayout_.map (checkExclusive btn) } btn true := by
  simp [setChecked, foldlM_onButtonToggled_false]

theorem onButtonToggled_true {Q : Type} (ops : FilePathOps Q) (bar : PathBar Q) (btn : Nat)
    (path : FilePath Q) (h : pathForButton ops bar btn = some path) :
    ∃ bar2, onButtonToggled ops bar btn true = some bar2 ∧ bar2.toggledBtn_ = some btn ∧
      bar2.currentPath_ = path ∧ bar2.emitted = bar.emitted ++ [Signal.chdir path] ∧
      bar2.buttonsLayout_ = bar.buttonsLayout_ ∧ bar2.nextId = bar.nextId ∧
      bar2.updatesEnabled = bar.updatesEnabled ∧ bar2.tempPathEdit_ = bar.tempPathEdit_ := by
  have h2 : pathForButton ops { bar with toggledBtn_ := some btn } btn = some path :=
    (pathForButton_layout ops bar _ btn rfl).trans h
  simp only [onButtonToggled, h2, if_true]
  split
  · exact ⟨_, rfl, rfl, rfl, rfl, rfl, rfl, rfl, rfl⟩
  · exact ⟨_, rfl, rfl, rfl, rfl, rfl, rfl, rfl, rfl⟩

theorem isRootPath_false {Q : Type} [DecidableEq Q] (ops : FilePathOps Q)
    (q : Q) (h : isRootPath ops q = false) :
    ∃ p, ops.parent q = some p ∧ p ≠ q := by
  simp only [isRootPath, Bool.or_eq_false_iff, decide_eq_false_iff_not] at h
  cases hp : ops.parent q with
  | none => exact absurd hp h.1
  | some p =>
    refine ⟨p, rfl, fun e => h.2 ?_⟩
    rw [hp, e]

theorem parentChain_root {Q : Type} [DecidableEq Q] (ops : FilePathOps Q)
    (n : Nat) (q : Q) (h : isRootPath ops q = true) :
    parentChain ops (n + 1) q = some [q] := by
  simp [parentChain, h]

theorem parentChain_child {Q : Type} [DecidableEq Q] (ops : FilePathOps Q)
    (n : Nat) (q p : Q) (h : isRootPath ops q = false)
    (hp : ops.parent q = some p) :
    parentChain ops (n + 1) q = (parentChain ops n p).map (fun l => q :: l) := by
  simp [parentChain, h, hp]

theorem parentChain_head {Q : Type} [DecidableEq Q] (ops : FilePathOps Q)
    (n : Nat) (q : Q) (l : List Q) (h : parentChain ops n q = some l) :
    ∃ t, l = q :: t := by
  cases n with
  | zero => simp [parentChain] at h
  | succ n =>
    by_cases hr : isRootPath ops q = true
    · rw [parentChain_root ops n q hr] at h
      exact ⟨[], by simpa using h.symm⟩
    · have hr2 : isRootPath ops q = false := by simpa using hr
      obtain ⟨p, hp, _⟩ := isRootPath_false ops q hr2
      rw [parentChain_child ops n q p hr2 hp] at h
      cases hc : parentChain ops n p with
      | none => simp [hc] at h
      | some t => exact ⟨t, by simpa [hc] using h.symm⟩

theorem parentChain_mono {Q : Type} [DecidableEq Q] (ops : FilePathOps Q)
    (n m : Nat) (q : Q) (l : List Q) (h : parentChain ops n q = some l)
    (hnm : n ≤ m) : parentChain ops m q = some l := by
  induction n generalizing m q l with
  | zero => simp [parentChain] at h
  | succ n ih =>
    obtain ⟨m, rfl⟩ : ∃ k, m = k + 1 := ⟨m - 1, by omega⟩
    by_cases hr : isRootPath ops q = true
    · rw [parentChain_root ops n q hr] at h
      rw [parentChain_root ops m q hr]; exact h
    · have hr2 : isRootPath ops q = false := by simpa using hr
      obtain ⟨p, hp, _⟩ := isRootPath_false ops q hr2
      rw [parentChain_child ops n q p hr2 hp] at h
      rw [parentChain_child ops m q p hr2 hp]
      cases hc : parentChain ops n p with
      | none => simp [hc] at h
      | some t =>
        rw [ih m p t hc (by omega)]
        simpa [hc] using h

theorem parentChain_unique {Q : Type} [DecidableEq Q] (ops : FilePathOps Q)
    (n m : Nat) (q : Q) (l l2 : List Q)
    (h : parentChain ops n q = some l) (h2 : parentChain ops m q = some l2) : l = l2 := by
  have a := parentChain_mono ops n (max n m) q l h (le_max_left _ _)
  have b := parentChain_mono ops m (max n m) q l2 h2 (le_max_right _ _)
  rw [a] at b
  exact Option.some.inj b

theorem parentChain_suffix {Q : Type} [DecidableEq Q] (ops : FilePathOps Q)
    (n : Nat) (p q : Q) (X Y : List Q)
    (h : parentChain ops n p = some (X ++ q :: Y)) :
    ∃ m, parentChain ops m q = some (q :: Y) := by
  induction X generalizing n p with
  | nil =>
    obtain ⟨t, ht⟩ := parentChain_head ops n p _ h
    simp only [List.nil_append, List.cons.injEq] at ht
    have e : q = p := ht.1
    subst e
    exact ⟨n, by simpa using h⟩
  | cons x X ih =>
    cases n with
    | zero => simp [parentChain] at h
    | succ n =>
      by_cases hr : isRootPath ops p = true
      · rw [parentChain_root ops n p hr] at h
        simp at h
      · have hr2 : isRootPath ops p = false := by simpa using hr
        obtain ⟨p2, hp, _⟩ := isRootPath_false ops p hr2
        rw [parentChain_child ops n p p2 hr2 hp] at h
        cases hc : parentChain ops n p2 with
        | none => simp [hc] at h
        | some t =>
          simp only [hc, Option.map_some', Option.some.injEq, List.cons_append,
            List.cons.injEq] at h
          exact ih n p2 (by rw [hc, h.2])

theorem joinNames_append (acc : String) (l : List String) (x : String) :
    joinNames acc (l ++ [x]) = appendSeparator (joinNames acc l) ++ x := by
  simp [joinNames, List.foldl_append]

theorem joinNames_chain {Q : Type} [DecidableEq Q] (ops : FilePathOps Q)
    (hl : Lawful ops) (n : Nat) (q : Q) (l : List Q)
    (h : parentChain ops n q = some l) :
    joinNames "" (l.reverse.map (segmentName ops)) = ops.toString q := by
  induction n generalizing q l with
  | zero => simp [parentChain] at h
  | succ n ih =>
    by_cases hr : isRootPath ops q = true
    · rw [parentChain_root ops n q hr] at h
      obtain rfl := Option.some.inj h
      simp [joinNames, segmentName, hr, appendSeparator]
    · have hr2 : isRootPath ops q = false := by simpa using hr
      obtain ⟨p, hp, hne⟩ := isRootPath_false ops q hr2
      rw [parentChain_child ops n q p hr2 hp] at h
      cases hc : parentChain ops n p with
      | none => simp [hc] at h
      | some t =>
        simp only [hc, Option.map_some', Option.some.injEq] at h
        subst h
        rw [List.reverse_cons, List.map_append, List.map_cons, List.map_nil, joinNames_append,
          ih p t hc, hl.toString_child q p hp hne]
        simp [segmentName, hr2]

/-- In a parent chain only the last path, the root, passes the root test. -/
theorem parentChain_roots {Q : Type} [DecidableEq Q] (ops : FilePathOps Q)
    (n : Nat) (q : Q) (l : List Q) (h : parentChain ops n q = some l) :
    ∃ r ds, l.reverse = r :: ds ∧ isRootPath ops r = true ∧
      (∀ d ∈ ds, isRootPath ops d = false) ∧ (r :: ds).getLast? = some q := by
  induction n generalizing q l with
  | zero => simp [parentChain] at h
  | succ n ih =>
    by_cases hr : isRootPath ops q = true
    · rw [parentChain_root ops n q hr] at h
      obtain rfl := Option.some.inj h
      exact ⟨q, [], rfl, hr, by simp, rfl⟩
    · have hr2 : isRootPath ops q = false := by simpa using hr
      obtain ⟨p, hp, hne⟩ := isRootPath_false ops q hr2
      rw [parentChain_child ops n q p hr2 hp] at h
      cases hc : parentChain ops n p with
      | none => simp [hc] at h
      | some t =>
        simp only [hc, Option.map_some', Option.some.injEq] at h
        subst h
        obtain ⟨r, ds, h1, h2, h3, _⟩ := ih p t hc
        refine ⟨r, ds ++ [q], by simp [h1], h2, ?_, ?_⟩
        · intro d hd
          rcases List.mem_append.mp hd with hd | hd
          · exact h3 d hd
          · simp at hd; rw [hd]; exact hr2
        · rw [← List.cons_append, List.getLast?_append]; simp

theorem takeAll_eq (l : List LayoutItem) : takeAll l = [] := by
  induction l with
  | nil => rfl
  | cons _ rest ih => simpa [takeAll] using ih

theorem createButtons_succ {Q : Type} [DecidableEq Q] (ops : FilePathOps Q)
    (fuel : Nat) (q : Q) (layout : List LayoutItem) (nid : Nat) :
    createButtons ops (fuel + 1) (some q) layout nid =
      if isRootPath ops q then some (LayoutItem.widget (mkButton ops nid q) :: layout, nid + 1)
      else createButtons ops fuel (ops.parent q)
        (LayoutItem.widget (mkButton ops nid q) :: layout) (nid + 1) := rfl

theorem createButtons_eq {Q : Type} [DecidableEq Q] (ops : FilePathOps Q)
    (fuel : Nat) (q : Q) (layout : List LayoutItem) (nid : Nat) :
    createButtons ops fuel (some q) layout nid =
      (parentChain ops fuel q).map (fun l =>
        ((newSegments ops nid l).reverse.map (fun s => LayoutItem.widget s.1) ++ layout,
          nid + l.length)) := by
  induction fuel generalizing q layout nid with
  | zero => simp [createButtons, parentChain]
  | succ n ih =>
    rw [createButtons_succ]
    by_cases hr : isRootPath ops q = true
    · rw [parentChain_root ops n q hr]
      simp [hr, newSegments]
    · have hr2 : isRootPath ops q = false := by simpa using hr
      obtain ⟨p, hp, _⟩ := isRootPath_false ops q hr2
      rw [parentChain_child ops n q p hr2 hp, hp, ih]
      simp only [hr2, Bool.false_eq_true, if_false]
      cases parentChain ops n p with
      | none => rfl
      | some t =>
        simp only [Option.map_some', newSegments, List.reverse_cons, List.map_append,
          List.map_cons, List.map_nil, List.append_assoc, List.singleton_append,
          List.length_cons, Option.some.injEq, Prod.mk.injEq, true_and]
        omega

theorem newSegments_snd {Q : Type} [DecidableEq Q] (ops : FilePathOps Q) (nid : Nat) (l : List Q) :
    (newSegments ops nid l).map Prod.snd = l := by
  induction l generalizing nid with
  | nil => rfl
  | cons q rest ih => simp [newSegments, ih]

theorem newSegments_ids {Q : Type} [DecidableEq Q] (ops : FilePathOps Q) (nid : Nat) (l : List Q) :
    (newSegments ops nid l).map (fun s => s.1.id) = List.range' nid l.length := by
  induction l generalizing nid with
  | nil => rfl
  | cons q rest ih => simp [newSegments, ih, mkButton, List.range'_succ]

theorem newSegments_mem {Q : Type} [DecidableEq Q] (ops : FilePathOps Q)
    (nid : Nat) (l : List Q) (s : PathButton × Q)
    (h : s ∈ newSegments ops nid l) :
    s.1 = mkButton ops s.1.id s.2 ∧ nid ≤ s.1.id ∧ s.1.id < nid + l.length := by
  induction l generalizing nid with
  | nil => simp [newSegments] at h
  | cons q rest ih =>
    simp only [newSegments, List.mem_cons] at h
    rcases h with h | h
    · subst h
      simp [mkButton]
    · obtain ⟨h1, h2, h3⟩ := ih (nid + 1) h
      refine ⟨h1, by omega, ?_⟩
      simp only [List.length_cons]; omega

theorem pathForButtonLoop_found {Q : Type}
    (btn : Nat) (pre : List (PathButton × Q)) (b : PathButton)
    (post : List LayoutItem) (acc : String) (hpre : ∀ x ∈ pre, x.1.id ≠ btn) (hb : b.id = btn) :
    pathForButtonLoop btn
        (pre.map (fun s => LayoutItem.widget s.1) ++ LayoutItem.widget b :: post) acc
      = some (joinNames acc (pre.map (fun s => s.1.name_) ++ [b.name_])) := by
  induction pre generalizing acc with
  | nil => simp [pathForButtonLoop, hb, joinNames]
  | cons x rest ih =>
    have hx : x.1.id ≠ btn := hpre x (by simp)
    have h := ih (appendSeparator acc ++ x.1.name_) (fun y hy => hpre y (by simp [hy]))
    simpa [pathForButtonLoop, hx, joinNames] using h

theorem buttonsOf_segments {Q : Type} (l : List (PathButton × Q)) (tail : List LayoutItem) :
    buttonsOf (l.map (fun s => LayoutItem.widget s.1) ++ tail) = l.map Prod.fst ++ buttonsOf tail := by
  induction l with
  | nil => rfl
  | cons x rest ih => simp [buttonsOf, ih]

theorem chained_buttons {Q : Type} [DecidableEq Q] (ops : FilePathOps Q)
    (layout : List LayoutItem) (nid : Nat) (segs : List (PathButton × Q))
    (hc : Chained ops layout nid segs) : buttonsOf layout = segs.reverse.map Prod.fst := by
  rw [hc.2.1, buttonsOf_segments]
  simp [buttonsOf]

theorem chained_buttonItems {Q : Type} [DecidableEq Q] (ops : FilePathOps Q)
    (layout : List LayoutItem) (nid : Nat)
    (segs : List (PathButton × Q)) (hc : Chained ops layout nid segs) :
    buttonItems layout = segs.reverse.map (fun s => LayoutItem.widget s.1) := by
  rw [hc.2.1, buttonItems_append_spacer]

/-- Under the chain invariant `pathForButton` gives each segment button the
path it was created for. -/
theorem pathForButton_segment {Q : Type} [DecidableEq Q] (ops : FilePathOps Q)
    (hl : Lawful ops) (bar : PathBar Q)
    (segs : List (PathButton × Q)) (s : PathButton × Q)
    (hc : Chained ops bar.buttonsLayout_ bar.nextId segs) (hs : s ∈ segs) :
    pathForButton ops bar s.1.id = some (some s.2) := by
  obtain ⟨X, Y, rfl⟩ := List.append_of_mem hs
  have hitems := chained_buttonItems ops _ _ _ hc
  obtain ⟨⟨n, p, hchain⟩, _, hnames, hnodup, _⟩ := hc
  rw [List.map_append, List.map_cons] at hchain
  obtain ⟨m, hm⟩ := parentChain_suffix ops n p s.2 _ _ hchain
  have hY : ∀ y ∈ Y.reverse, y.1.id ≠ s.1.id := by
    intro y hy e
    rw [List.map_append, List.map_cons, List.nodup_append] at hnodup
    have h2 := (List.nodup_cons.mp hnodup.2.1).1
    exact h2 (by rw [← e]; exact List.mem_map_of_mem (fun s => s.1.id) (List.mem_reverse.mp hy))
  have hj := joinNames_chain ops hl m s.2 _ hm
  have hn : Y.reverse.map (fun s => s.1.name_) ++ [s.1.name_]
      = (s.2 :: Y.map Prod.snd).reverse.map (segmentName ops) := by
    rw [hnames s (by simp)]
    simp only [List.reverse_cons, List.map_append, List.map_cons, List.map_nil,
      List.append_cancel_right_eq, ← List.map_reverse, List.map_map]
    apply List.map_congr_left
    intro y hy
    exact hnames y (by simp [List.mem_reverse.mp hy])
  simp only [pathForButton, hitems, List.reverse_append, List.reverse_cons, List.map_append,
    List.map_cons, List.map_nil, List.append_assoc, List.singleton_append]
  rw [pathForButtonLoop_found s.1.id Y.reverse s.1 _ "" hY rfl, hn, hj]
  simp [hl.fromPathStr_toString]

theorem isChecked_iff (layout : List LayoutItem) (btn : Nat) :
    isChecked layout btn = true ↔ ∃ b ∈ buttonsOf layout, b.id = btn ∧ b.checked = true := by
  simp [isChecked, List.any_eq_true]

theorem segments_inj {Q : Type} (segs : List (PathButton × Q))
    (hn : (segs.map (fun s => s.1.id)).Nodup) (s t : PathButton × Q) (hs : s ∈ segs)
    (ht : t ∈ segs) (e : s.1.id = t.1.id) : s = t :=
  List.inj_on_of_nodup_map hn hs ht e

theorem chained_checkSegment {Q : Type} [DecidableEq Q] (ops : FilePathOps Q)
    (layout : List LayoutItem) (nid : Nat) (segs : List (PathButton × Q)) (btn : Nat)
    (hc : Chained ops layout nid segs) :
    Chained ops (layout.map (checkExclusive btn)) nid (segs.map (checkSegment btn)) := by
  obtain ⟨hchain, hlay, hnames, hnodup, hlt⟩ := hc
  have hsnd : (segs.map (checkSegment btn)).map Prod.snd = segs.map Prod.snd := by
    simp [List.map_map, Function.comp_def, checkSegment]
  have hid : (segs.map (checkSegment btn)).map (fun s => s.1.id) = segs.map (fun s => s.1.id) := by
    simp [List.map_map, Function.comp_def, checkSegment]
  refine ⟨by rw [hsnd]; exact hchain, ?_, ?_, by rw [hid]; exact hnodup, ?_⟩
  · rw [hlay]
    simp [List.map_map, Function.comp_def, checkSegment, checkExclusive, List.map_reverse]
  · intro s hs
    obtain ⟨t, ht, rfl⟩ := List.mem_map.mp hs
    exact hnames t ht
  · intro s hs
    obtain ⟨t, ht, rfl⟩ := List.mem_map.mp hs
    exact hlt t ht

theorem barInv_checked {Q : Type} [DecidableEq Q] (ops : FilePathOps Q) (bar : PathBar Q)
    (segs : List (PathButton × Q)) (s : PathButton × Q)
    (hc : Chained ops bar.buttonsLayout_ bar.nextId (segs.map (checkSegment s.1.id)))
    (hn : (segs.map (fun s => s.1.id)).Nodup) (hs : s ∈ segs)
    (hp : bar.currentPath_ = some s.2) (ht : bar.toggledBtn_ = some s.1.id) :
    BarInv ops bar := by
  refine Or.inr ⟨_, checkSegment s.1.id s, hc, List.mem_map_of_mem _ hs, ?_, hp, ht, ?_⟩
  · simp [checkSegment]
  · intro t ht hck
    obtain ⟨u, hu, rfl⟩ := List.mem_map.mp ht
    have e : u.1.id = s.1.id := by simpa [checkSegment] using hck
    rw [segments_inj segs hn u s hu hs e]

theorem setChecked_segment {Q : Type} [DecidableEq Q] (ops : FilePathOps Q) (hl : Lawful ops)
    (bar : PathBar Q) (segs : List (PathButton × Q)) (s : PathButton × Q)
    (hc : Chained ops bar.buttonsLayout_ bar.nextId segs) (hs : s ∈ segs)
    (hu : s.1.checked = false) :
    ∃ bar2, setChecked ops bar s.1.id = some bar2 ∧
      bar2.buttonsLayout_ = bar.buttonsLayout_.map (checkExclusive s.1.id) ∧
      bar2.nextId = bar.nextId ∧ bar2.currentPath_ = some s.2 ∧
      bar2.toggledBtn_ = some s.1.id ∧
      bar2.emitted = bar.emitted ++ [Signal.chdir (some s.2)] ∧
      bar2.updatesEnabled = bar.updatesEnabled ∧
      bar2.tempPathEdit_ = bar.tempPathEdit_ ∧ BarInv ops bar2 := by
  have hnot : isChecked bar.buttonsLayout_ s.1.id = false := by
    rw [Bool.eq_false_iff]
    intro h
    obtain ⟨b, hb, hid, hck⟩ := (isChecked_iff _ _).mp h
    rw [chained_buttons ops _ _ _ hc] at hb
    obtain ⟨t, ht, rfl⟩ := List.mem_map.mp hb
    have e := segments_inj segs hc.2.2.2.1 t s (List.mem_reverse.mp ht) hs hid
    rw [e, hu] at hck
    exact Bool.false_ne_true hck
  have hpath : pathForButton ops
      { bar with buttonsLayout_ := bar.buttonsLayout_.map (checkExclusive s.1.id) } s.1.id
      = some (some s.2) :=
    (pathForButton_checkExclusive ops bar _ s.1.id s.1.id rfl).trans
      (pathForButton_segment ops hl bar segs s hc hs)
  obtain ⟨bar2, h1, h2, h3, h4, h5, h6, h7, h8⟩ := onButtonToggled_true ops _ s.1.id _ hpath
  refine ⟨bar2, ?_, h5, h6, h3, h2, h4, h7, h8, ?_⟩
  · rw [setChecked_eq, hnot]; exact h1
  · apply barInv_checked ops bar2 segs s ?_ hc.2.2.2.1 hs h3 h2
    rw [h5, h6]
    exact chained_checkSegment ops _ _ segs s.1.id hc

theorem checkLastButton_segments {Q : Type} (ops : FilePathOps Q) (bar : PathBar Q)
    (s : PathButton × Q) (rest : List (PathButton × Q))
    (h : bar.buttonsLayout_ =
      (s :: rest).reverse.map (fun s => LayoutItem.widget s.1) ++ [LayoutItem.spacer]) :
    checkLastButton ops bar = setChecked ops bar s.1.id := by
  have hlen : bar.buttonsLayout_.length = rest.length + 2 := by simp [h]
  have hpos : ((bar.buttonsLayout_.length : Int) - 1 > 0) := by rw [hlen]; push_cast; omega
  have hidx : ((bar.buttonsLayout_.length : Int) - 1 - 1).toNat = rest.length := by
    rw [hlen]; push_cast; omega
  have hget : bar.buttonsLayout_.get? rest.length = some (LayoutItem.widget s.1) := by
    rw [h]
    simp only [List.reverse_cons, List.map_append, List.map_cons, List.map_nil,
      List.append_assoc, List.get?_eq_getElem?]
    rw [List.getElem?_append_right (by simp)]
    simp
  simp only [checkLastButton, hpos, if_true, hidx, hget]

theorem checkLastButton_spacer {Q : Type} (ops : FilePathOps Q) (bar : PathBar Q)
    (h : bar.buttonsLayout_ = [LayoutItem.spacer]) : checkLastButton ops bar = some bar := by
  simp [checkLastButton, h]

theorem rebuild_none {Q : Type} [DecidableEq Q] (ops : FilePathOps Q) (fuel : Nat)
    (bar : PathBar Q) (h : createButtons ops fuel bar.currentPath_ [] bar.nextId = none) :
    rebuild ops fuel bar = none := by
  simp only [rebuild, takeAll_eq, h]

theorem rebuild_some {Q : Type} [DecidableEq Q] (ops : FilePathOps Q) (fuel : Nat)
    (bar : PathBar Q) (layout : List LayoutItem) (nextId : Nat)
    (h : createButtons ops fuel bar.currentPath_ [] bar.nextId = some (layout, nextId)) :
    rebuild ops fuel bar =
      (checkLastButton ops
        { bar with
          updatesEnabled := false
          toggledBtn_ := none
          buttonsLayout_ := layout ++ [LayoutItem.spacer]
          nextId := nextId
          pending := bar.pending ++ [Deferred.setScrollButtonVisibility] }).map
        (fun b => { b with updatesEnabled := true }) := by
  simp only [rebuild, takeAll_eq, h]

/-! ## PathBar: the invariant of reachable bars -/

theorem setPath_same {Q : Type} [DecidableEq Q] (ops : FilePathOps Q) (fuel : Nat)
    (bar : PathBar Q) (path : FilePath Q) (h : bar.currentPath_ = path) :
    setPath ops fuel bar path = some bar := by
  simp [setPath, h]

theorem setPath_found {Q : Type} [DecidableEq Q] (ops : FilePathOps Q) (fuel : Nat)
    (bar : PathBar Q) (path : FilePath Q) (btn : Nat) (h : bar.currentPath_ ≠ path)
    (hf : findExisting ops bar.currentPath_ { bar with currentPath_ := path } = some (some btn)) :
    setPath ops fuel bar path = setChecked ops { bar with currentPath_ := path } btn := by
  simp [setPath, h, hf]

theorem setPath_notFound {Q : Type} [DecidableEq Q] (ops : FilePathOps Q) (fuel : Nat)
    (bar : PathBar Q) (path : FilePath Q) (h : bar.currentPath_ ≠ path)
    (hf : findExisting ops bar.currentPath_ { bar with currentPath_ := path } = some none) :
    setPath ops fuel bar path = rebuild ops fuel { bar with currentPath_ := path } := by
  simp [setPath, h, hf]

theorem findButton_spec {Q : Type} [DecidableEq Q] (ops : FilePathOps Q) (bar : PathBar Q)
    (items : List LayoutItem)
    (h : ∀ item ∈ items, ∃ b p, item = LayoutItem.widget b ∧
      pathForButton ops bar b.id = some p) :
    (findButton ops bar items = some none ∧
      ∀ b, LayoutItem.widget b ∈ items → pathForButton ops bar b.id ≠ some bar.currentPath_) ∨
    (∃ b, findButton ops bar items = some (some b.id) ∧ LayoutItem.widget b ∈ items ∧
      pathForButton ops bar b.id = some bar.currentPath_) := by
  induction items with
  | nil => exact Or.inl ⟨rfl, by simp⟩
  | cons item rest ih =>
    obtain ⟨b, p, rfl, hp⟩ := h item (by simp)
    by_cases e : p = bar.currentPath_
    · refine Or.inr ⟨b, ?_, by simp, by rw [hp, e]⟩
      simp [findButton, hp, e]
    · have hstep : findButton ops bar (LayoutItem.widget b :: rest) = findButton ops bar rest := by
        simp [findButton, hp, e]
      rcases ih (fun item hi => h item (by simp [hi])) with ⟨h1, h2⟩ | ⟨c, h1, h2, h3⟩
      · refine Or.inl ⟨hstep.trans h1, ?_⟩
        intro c hc
        simp only [List.mem_cons, LayoutItem.widget.injEq] at hc
        rcases hc with hc | hc
        · rw [hc, hp]; simpa using e
        · exact h2 c hc
      · exact Or.inr ⟨c, hstep.trans h1, by simp [h2], h3⟩

theorem barInv_congr {Q : Type} [DecidableEq Q] (ops : FilePathOps Q) (bar bar2 : PathBar Q)
    (h1 : bar2.buttonsLayout_ = bar.buttonsLayout_) (h2 : bar2.nextId = bar.nextId)
    (h3 : bar2.currentPath_ = bar.currentPath_) (h4 : bar2.toggledBtn_ = bar.toggledBtn_)
    (h : BarInv ops bar) : BarInv ops bar2 := by
  simp only [BarInv, h1, h2, h3, h4]
  exact h

theorem chained_newSegments {Q : Type} [DecidableEq Q] (ops : FilePathOps Q) (nid n : Nat)
    (q : Q) (l : List Q) (hc : parentChain ops n q = some l) :
    Chained ops
      ((newSegments ops nid l).reverse.map (fun s => LayoutItem.widget s.1) ++ [LayoutItem.spacer])
      (nid + l.length) (newSegments ops nid l) := by
  refine ⟨⟨n, q, by rw [newSegments_snd]; exact hc⟩, rfl, ?_, ?_, ?_⟩
  · intro s hs
    have h := (newSegments_mem ops nid l s hs).1
    rw [h]; rfl
  · rw [newSegments_ids]; exact List.nodup_range' _ _
  · intro s hs
    exact (newSegments_mem ops nid l s hs).2.2

theorem createButtons_invalid {Q : Type} [DecidableEq Q] (ops : FilePathOps Q) (fuel : Nat)
    (layout : List LayoutItem) (nid : Nat) :
    createButtons ops fuel none layout nid = some (layout, nid) := by
  cases fuel <;> rfl

theorem setChecked_unchecked {Q : Type} (ops : FilePathOps Q) (bar : PathBar Q) (btn : Nat)
    (path : FilePath Q) (hp : pathForButton ops bar btn = some path)
    (hu : isChecked bar.buttonsLayout_ btn = false) :
    ∃ bar2, setChecked ops bar btn = some bar2 ∧
      bar2.buttonsLayout_ = bar.buttonsLayout_.map (checkExclusive btn) ∧
      bar2.nextId = bar.nextId ∧ bar2.currentPath_ = path ∧ bar2.toggledBtn_ = some btn ∧
      bar2.emitted = bar.emitted ++ [Signal.chdir path] ∧
      bar2.updatesEnabled = bar.updatesEnabled ∧ bar2.tempPathEdit_ = bar.tempPathEdit_ := by
  have hpath : pathForButton ops
      { bar with buttonsLayout_ := bar.buttonsLayout_.map (checkExclusive btn) } btn
      = some path :=
    (pathForButton_checkExclusive ops bar _ btn btn rfl).trans hp
  obtain ⟨bar2, h1, h2, h3, h4, h5, h6, h7, h8⟩ := onButtonToggled_true ops _ btn _ hpath
  exact ⟨bar2, by rw [setChecked_eq, hu]; exact h1, h5, h6, h3, h2, h4, h7, h8⟩

theorem rebuild_invalid {Q : Type} [DecidableEq Q] (ops : FilePathOps Q) (fuel : Nat)
    (bar : PathBar Q) (hq : bar.currentPath_ = none) :
    ∃ bar2, rebuild ops fuel bar = some bar2 ∧ bar2.buttonsLayout_ = [LayoutItem.spacer] ∧
      bar2.currentPath_ = none ∧ bar2.toggledBtn_ = none ∧ bar2.emitted = bar.emitted ∧
      bar2.nextId = bar.nextId ∧ bar2.tempPathEdit_ = bar.tempPathEdit_ := by
  have hcb : createButtons ops fuel bar.currentPath_ [] bar.nextId = some ([], bar.nextId) := by
    rw [hq, createButtons_invalid]
  rw [rebuild_some ops fuel bar _ _ hcb, checkLastButton_spacer ops _ rfl]
  exact ⟨_, rfl, rfl, hq, rfl, rfl, rfl, rfl⟩

theorem rebuild_chain {Q : Type} [DecidableEq Q] (ops : FilePathOps Q) (hl : Lawful ops)
    (fuel : Nat) (bar : PathBar Q) (q : Q) (l : List Q) (hq : bar.currentPath_ = some q)
    (hc : parentChain ops fuel q = some l) :
    ∃ bar2, rebuild ops fuel bar = some bar2 ∧
      bar2.buttonsLayout_ =
        ((newSegments ops bar.nextId l).reverse.map (fun s => LayoutItem.widget s.1)
          ++ [LayoutItem.spacer]).map (checkExclusive bar.nextId) ∧
      bar2.nextId = bar.nextId + l.length ∧ bar2.currentPath_ = some q ∧
      bar2.toggledBtn_ = some bar.nextId ∧
      bar2.emitted = bar.emitted ++ [Signal.chdir (some q)] ∧
      bar2.updatesEnabled = true ∧ bar2.tempPathEdit_ = bar.tempPathEdit_ ∧
      BarInv ops bar2 := by
  obtain ⟨t, rfl⟩ := parentChain_head ops fuel q l hc
  have hcb : createButtons ops fuel bar.currentPath_ [] bar.nextId
      = some ((newSegments ops bar.nextId (q :: t)).reverse.map (fun s => LayoutItem.widget s.1),
          bar.nextId + (q :: t).length) := by
    rw [hq, createButtons_eq, hc]; simp
  rw [rebuild_some ops fuel bar _ _ hcb]
  have hchained := chained_newSegments ops bar.nextId fuel q (q :: t) hc
  have hmem : (mkButton ops bar.nextId q, q) ∈ newSegments ops bar.nextId (q :: t) := by
    simp [newSegments]
  obtain ⟨b2, h1, h2, h3, h4, h5, h6, h7, h8, h9⟩ := setChecked_segment ops hl
    { bar with
      updatesEnabled := false
      toggledBtn_ := none
      buttonsLayout_ := (newSegments ops bar.nextId (q :: t)).reverse.map
        (fun s => LayoutItem.widget s.1) ++ [LayoutItem.spacer]
      nextId := bar.nextId + (q :: t).length
      pending := bar.pending ++ [Deferred.setScrollButtonVisibility] }
    (newSegments ops bar.nextId (q :: t)) (mkButton ops bar.nextId q, q) hchained hmem rfl
  rw [checkLastButton_segments ops _ (mkButton ops bar.nextId q, q)
    (newSegments ops (bar.nextId + 1) t) rfl]
  refine ⟨{ b2 with updatesEnabled := true }, ?_, h2, h3, h4, h5, h6, rfl, h8, ?_⟩
  · rw [h1]; rfl
  · exact barInv_congr ops b2 _ rfl rfl rfl rfl h9

theorem rebuild_spec {Q : Type} [DecidableEq Q] (ops : FilePathOps Q) (hl : Lawful ops)
    (fuel : Nat) (bar : PathBar Q) :
    (∃ q, bar.currentPath_ = some q ∧ parentChain ops fuel q = none ∧
      rebuild ops fuel bar = none) ∨
    (∃ bar2, rebuild ops fuel bar = some bar2 ∧ BarInv ops bar2 ∧
      bar2.currentPath_ = bar.currentPath_ ∧ bar2.tempPathEdit_ = bar.tempPathEdit_) := by
  cases hq : bar.currentPath_ with
  | none =>
    obtain ⟨b2, h1, h2, h3, h4, h5, h6, h7⟩ := rebuild_invalid ops fuel bar hq
    exact Or.inr ⟨b2, h1, Or.inl ⟨h3, Or.inr h2⟩, h3, h7⟩
  | some q =>
    cases hc : parentChain ops fuel q with
    | none =>
      refine Or.inl ⟨q, rfl, hc, ?_⟩
      apply rebuild_none
      rw [hq, createButtons_eq, hc]; rfl
    | some l =>
      obtain ⟨b2, h1, _, _, h4, _, _, _, h8, h9⟩ := rebuild_chain ops hl fuel bar q l hq hc
      exact Or.inr ⟨b2, h1, h9, h4, h8⟩

theorem findExisting_chained {Q : Type} [DecidableEq Q] (ops : FilePathOps Q) (hl : Lawful ops)
    (bar : PathBar Q) (segs : List (PathButton × Q)) (o c : Q)
    (hc : Chained ops bar.buttonsLayout_ bar.nextId segs) (hcur : bar.currentPath_ = some c) :
    (findExisting ops (some o) bar = some none ∧
      (ops.isPrefixOf c o = false ∨ ∀ t ∈ segs, t.2 ≠ c)) ∨
    (∃ t ∈ segs, t.2 = c ∧ ops.isPrefixOf c o = true ∧
      findExisting ops (some o) bar = some (some t.1.id)) := by
  by_cases hpre : ops.isPrefixOf c o = true
  · have hfe : findExisting ops (some o) bar
        = findButton ops bar (segs.map (fun s => LayoutItem.widget s.1)) := by
      simp [findExisting, hcur, hpre, chained_buttonItems ops _ _ _ hc, List.map_reverse]
    have hitems : ∀ item ∈ segs.map (fun s => LayoutItem.widget s.1),
        ∃ b p, item = LayoutItem.widget b ∧ pathForButton ops bar b.id = some p := by
      intro item hi
      obtain ⟨t, ht, rfl⟩ := List.mem_map.mp hi
      exact ⟨t.1, _, rfl, pathForButton_segment ops hl bar segs t hc ht⟩
    rcases findButton_spec ops bar _ hitems with ⟨h1, h2⟩ | ⟨b, h1, h2, h3⟩
    · refine Or.inl ⟨hfe.trans h1, Or.inr ?_⟩
      intro t ht e
      apply h2 t.1 (List.mem_map_of_mem _ ht)
      rw [pathForButton_segment ops hl bar segs t hc ht, hcur, e]
    · obtain ⟨t, ht, hb⟩ := List.mem_map.mp h2
      have hb2 : t.1 = b := by simpa using hb
      subst hb2
      refine Or.inr ⟨t, ht, ?_, hpre, hfe.trans h1⟩
      rw [pathForButton_segment ops hl bar segs t hc ht, hcur] at h3
      simpa using h3
  · have hpre2 : ops.isPrefixOf c o = false := by simpa using hpre
    exact Or.inl ⟨by simp [findExisting, hcur, hpre2], Or.inl hpre2⟩

theorem barInvW_of_barInv {Q : Type} [DecidableEq Q] (ops : FilePathOps Q) (bar : PathBar Q)
    (h : BarInv ops bar) : BarInvW ops bar := by
  rcases h with h | ⟨segs, s, hc, hs, _, hcur, htog, huniq⟩
  · exact Or.inl h
  · exact Or.inr ⟨segs, s, hc, hs, hcur, htog, huniq⟩

theorem barInvW_congr {Q : Type} [DecidableEq Q] (ops : FilePathOps Q) (bar bar2 : PathBar Q)
    (h1 : bar2.buttonsLayout_ = bar.buttonsLayout_) (h2 : bar2.nextId = bar.nextId)
    (h3 : bar2.currentPath_ = bar.currentPath_) (h4 : bar2.toggledBtn_ = bar.toggledBtn_)
    (h : BarInvW ops bar) : BarInvW ops bar2 := by
  simp only [BarInvW, h1, h2, h3, h4]
  exact h

theorem setPath_spec {Q : Type} [DecidableEq Q] (ops : FilePathOps Q) (hl : Lawful ops)
    (fuel : Nat) (bar : PathBar Q) (path : FilePath Q) (hinv : BarInvW ops bar) :
    (∃ q, path = some q ∧ parentChain ops fuel q = none ∧ setPath ops fuel bar path = none) ∨
    (∃ bar2, setPath ops fuel bar path = some bar2 ∧ bar2.currentPath_ = path ∧
      ((bar2 = bar ∧ bar.currentPath_ = path) ∨ BarInv ops bar2)) := by
  by_cases heq : bar.currentPath_ = path
  · exact Or.inr ⟨bar, setPath_same ops fuel bar path heq, heq, Or.inl ⟨rfl, heq⟩⟩
  · have hrebuild : findExisting ops bar.currentPath_ { bar with currentPath_ := path } = some none →
        (∃ q, path = some q ∧ parentChain ops fuel q = none ∧ setPath ops fuel bar path = none) ∨
        (∃ bar2, setPath ops fuel bar path = some bar2 ∧ bar2.currentPath_ = path ∧
          ((bar2 = bar ∧ bar.currentPath_ = path) ∨ BarInv ops bar2)) := by
      intro hf
      rw [setPath_notFound ops fuel bar path heq hf]
      rcases rebuild_spec ops hl fuel { bar with currentPath_ := path } with
        ⟨q, h1, h2, h3⟩ | ⟨b2, h1, h2, h3, _⟩
      · exact Or.inl ⟨q, h1, h2, h3⟩
      · exact Or.inr ⟨b2, h1, h3, Or.inr h2⟩
    rcases hinv with ⟨hnone, _⟩ | ⟨segs, s, hc, hs, hcur, htog, huniq⟩
    · apply hrebuild
      simp [findExisting, hnone]
    · cases path with
      | none =>
        apply hrebuild
        simp [findExisting, hcur]
      | some c =>
        rcases findExisting_chained ops hl { bar with currentPath_ := some c } segs s.2 c hc rfl
          with ⟨h1, _⟩ | ⟨t, ht, htc, _, hfound⟩
        · exact hrebuild (by rw [hcur]; exact h1)
        · have hcur2 : bar.currentPath_ = some s.2 := hcur
          have hunchecked : t.1.checked = false := by
            rw [Bool.eq_false_iff]
            intro hchecked
            have e := huniq t ht hchecked
            apply heq
            rw [hcur2, ← htc, e]
          obtain ⟨b2, h1, _, _, h4, _, _, _, _, h9⟩ :=
            setChecked_segment ops hl { bar with currentPath_ := some c } segs t hc ht hunchecked
          refine Or.inr ⟨b2, ?_, by rw [h4, htc], Or.inr h9⟩
          have hf2 : findExisting ops bar.currentPath_ { bar with currentPath_ := some c }
              = some (some t.1.id) := by rw [hcur2]; exact hfound
          rw [setPath_found ops fuel bar (some c) t.1.id heq hf2]
          exact h1

theorem chained_uncheckSegment {Q : Type} [DecidableEq Q] (ops : FilePathOps Q)
    (layout : List LayoutItem) (nid : Nat) (segs : List (PathButton × Q)) (btn : Nat)
    (hc : Chained ops layout nid segs) :
    Chained ops (layout.map (uncheckItem btn)) nid (segs.map (uncheckSegment btn)) := by
  obtain ⟨hchain, hlay, hnames, hnodup, hlt⟩ := hc
  have hsnd : (segs.map (uncheckSegment btn)).map Prod.snd = segs.map Prod.snd := by
    simp [List.map_map, Function.comp_def, uncheckSegment]
  have hid : (segs.map (uncheckSegment btn)).map (fun s => s.1.id)
      = segs.map (fun s => s.1.id) := by
    simp [List.map_map, Function.comp_def, uncheckSegment]
  refine ⟨by rw [hsnd]; exact hchain, ?_, ?_, by rw [hid]; exact hnodup, ?_⟩
  · rw [hlay]
    simp [List.map_map, Function.comp_def, uncheckSegment, uncheckItem, List.map_reverse]
  · intro s hs
    obtain ⟨t, ht, rfl⟩ := List.mem_map.mp hs
    exact hnames t ht
  · intro s hs
    obtain ⟨t, ht, rfl⟩ := List.mem_map.mp hs
    exact hlt t ht

/-- A button losing its check changes the toggle states only: the toggled
button, the current path and the emitted signals stay as they are. -/
theorem setUnchecked_spec {Q : Type} (ops : FilePathOps Q) (bar : PathBar Q) (btn : Nat) :
    ∃ bar2, setUnchecked ops bar btn = some bar2 ∧ bar2.toggledBtn_ = bar.toggledBtn_ ∧
      bar2.currentPath_ = bar.currentPath_ ∧ bar2.emitted = bar.emitted ∧
      bar2.nextId = bar.nextId ∧ bar2.tempPathEdit_ = bar.tempPathEdit_ ∧
      bar2.scrollToStartVisible = bar.scrollToStartVisible ∧
      bar2.scrollToEndVisible = bar.scrollToEndVisible ∧
      (bar2.buttonsLayout_ = bar.buttonsLayout_ ∨
        bar2.buttonsLayout_ = bar.buttonsLayout_.map (uncheckItem btn)) := by
  cases hc : isChecked bar.buttonsLayout_ btn with
  | false =>
    exact ⟨bar, by simp [setUnchecked, hc], rfl, rfl, rfl, rfl, rfl, rfl, rfl, Or.inl rfl⟩
  | true =>
    refine ⟨{ bar with buttonsLayout_ := bar.buttonsLayout_.map (uncheckItem btn) }, ?_,
      rfl, rfl, rfl, rfl, rfl, rfl, rfl, Or.inr rfl⟩
    simp [setUnchecked, hc, onButtonToggled_false]

theorem setUnchecked_barInvW {Q : Type} [DecidableEq Q] (ops : FilePathOps Q)
    (bar bar2 : PathBar Q) (btn : Nat) (h : setUnchecked ops bar btn = some bar2)
    (hinv : BarInvW ops bar) : BarInvW ops bar2 := by
  obtain ⟨b, h1, h2, h3, _, h5, _, _, _, h9⟩ := setUnchecked_spec ops bar btn
  rw [h1] at h
  obtain rfl := Option.some.inj h
  rcases h9 with h9 | h9
  · exact barInvW_congr ops bar b h9 h5 h3 h2 hinv
  · rcases hinv with ⟨hnone, hlay⟩ | ⟨segs, s, hc, hs, hcur, htog, huniq⟩
    · refine Or.inl ⟨by rw [h3]; exact hnone, ?_⟩
      rcases hlay with hlay | hlay
      · exact Or.inl (by rw [h9, hlay]; rfl)
      · exact Or.inr (by rw [h9, hlay]; rfl)
    · refine Or.inr ⟨segs.map (uncheckSegment btn), uncheckSegment btn s, ?_,
        List.mem_map_of_mem _ hs, by rw [h3]; exact hcur, by rw [h2]; exact htog, ?_⟩
      · rw [h9, h5]
        exact chained_uncheckSegment ops _ _ segs btn hc
      · intro t ht hck
        obtain ⟨u, hu, rfl⟩ := List.mem_map.mp ht
        have e : u.1.checked = true := by
          have hck2 : (u.1.checked && !decide (u.1.id = btn)) = true := hck
          exact (Bool.and_eq_true_iff.mp hck2).1
        rw [huniq u hu e]

theorem clickButton_spec {Q : Type} [DecidableEq Q] (ops : FilePathOps Q) (hl : Lawful ops)
    (bar : PathBar Q) (btn : Nat) (hinv : BarInvW ops bar) :
    ∃ bar2, clickButton ops bar btn = some bar2 ∧ BarInvW ops bar2 := by
  by_cases hmem : btn ∈ (buttonsOf bar.buttonsLayout_).map PathButton.id
  · cases hchk : isChecked bar.buttonsLayout_ btn with
    | true =>
      by_cases hone : (buttonsOf bar.buttonsLayout_).length = 1
      · obtain ⟨b2, h1, _⟩ := setUnchecked_spec ops bar btn
        refine ⟨b2, ?_, setUnchecked_barInvW ops bar b2 btn h1 hinv⟩
        simp [clickButton, hmem, hchk, hone, h1]
      · exact ⟨bar, by simp [clickButton, hmem, hchk, hone], hinv⟩
    | false =>
      have hcl : clickButton ops bar btn = setChecked ops bar btn := by
        simp [clickButton, hmem, hchk]
      rcases hinv with ⟨hnone, hlay⟩ | ⟨segs, s, hc, hs, hcur, htog, huniq⟩
      · exfalso
        rcases hlay with hlay | hlay <;> simp [hlay, buttonsOf] at hmem
      · rw [chained_buttons ops _ _ _ hc] at hmem
        obtain ⟨b, hb, hid⟩ := List.mem_map.mp hmem
        obtain ⟨t, ht, rfl⟩ := List.mem_map.mp hb
        have ht2 : t ∈ segs := List.mem_reverse.mp ht
        have hun : t.1.checked = false := by
          rw [Bool.eq_false_iff]
          intro hck
          have hic : isChecked bar.buttonsLayout_ btn = true := by
            rw [isChecked_iff, chained_buttons ops _ _ _ hc]
            exact ⟨t.1, hb, hid, hck⟩
          rw [hchk] at hic
          exact Bool.noConfusion hic
        obtain ⟨b2, h1, _, _, _, _, _, _, _, h9⟩ :=
          setChecked_segment ops hl bar segs t hc ht2 hun
        refine ⟨b2, ?_, barInvW_of_barInv ops b2 h9⟩
        rw [hcl, ← hid]; exact h1
  · exact ⟨bar, by simp [clickButton, hmem], hinv⟩

theorem barInv_new {Q : Type} [DecidableEq Q] (ops : FilePathOps Q) :
    BarInv ops (PathBar.new Q) :=
  Or.inl ⟨rfl, Or.inl rfl⟩

theorem reachable_barInvW {Q : Type} [DecidableEq Q] (ops : FilePathOps Q) (hl : Lawful ops)
    (bar : PathBar Q) (hr : Reachable ops bar) : BarInvW ops bar := by
  induction hr with
  | new => exact barInvW_of_barInv ops _ (barInv_new ops)
  | setPath bar bar2 fuel path _ hstep ih =>
    rcases setPath_spec ops hl fuel bar path ih with ⟨_, _, _, h3⟩ | ⟨b2, h1, _, h3⟩
    · rw [h3] at hstep; exact absurd hstep (by simp)
    · rw [h1] at hstep
      rw [← Option.some.inj hstep]
      rcases h3 with ⟨h3, _⟩ | h3
      · rw [h3]; exact ih
      · exact barInvW_of_barInv ops b2 h3
  | click bar bar2 btn _ hstep ih =>
    obtain ⟨b2, h1, h2⟩ := clickButton_spec ops hl bar btn ih
    rw [h1] at hstep
    rw [← Option.some.inj hstep]; exact h2
  | toggleOff bar bar2 btn _ hstep ih =>
    exact setUnchecked_barInvW ops bar bar2 btn hstep ih

/-! ## PathBar: the claims -/

theorem demoOps_lawful : Lawful demoOps where
  reaches_root := by
    intro q
    cases q <;> exact ⟨3, by decide⟩
  toString_child := by
    intro q p
    cases q <;> cases p <;> decide
  fromPathStr_toString := by
    intro q
    cases q <;> decide

theorem demoOps_prefixIsAncestor : PrefixIsAncestor demoOps := by
  intro a b h
  refine ⟨3, ?_⟩
  cases a <;> cases b <;> first
    | exact absurd h (by decide)
    | exact ⟨_, rfl, by decide⟩

theorem pathForButtonLoop_widgets {Q : Type} (btn : Nat) (l : List (PathButton × Q))
    (acc : String) :
    ∃ str, pathForButtonLoop btn (l.map (fun s => LayoutItem.widget s.1)) acc = some str := by
  induction l generalizing acc with
  | nil => exact ⟨acc, rfl⟩
  | cons x rest ih =>
    by_cases e : x.1.id = btn
    · exact ⟨appendSeparator acc ++ x.1.name_, by simp [pathForButtonLoop, e]⟩
    · obtain ⟨str, h⟩ := ih (appendSeparator acc ++ x.1.name_)
      exact ⟨str, by simpa [pathForButtonLoop, e] using h⟩

theorem pathForButton_widgets {Q : Type} (ops : FilePathOps Q) (bar : PathBar Q)
    (l : List (PathButton × Q)) (btn : Nat)
    (h : bar.buttonsLayout_ = l.map (fun s => LayoutItem.widget s.1) ++ [LayoutItem.spacer]) :
    ∃ path, pathForButton ops bar btn = some path := by
  obtain ⟨str, hs⟩ := pathForButtonLoop_widgets btn l ""
  exact ⟨ops.fromPathStr str, by simp [pathForButton, h, buttonItems_append_spacer, hs]⟩

theorem checked_filter {Q : Type} [DecidableEq Q] (ops : FilePathOps Q) (bar : PathBar Q)
    (segs : List (PathButton × Q)) (s : PathButton × Q)
    (hc : Chained ops bar.buttonsLayout_ bar.nextId segs) (hs : s ∈ segs)
    (hck : s.1.checked = true) (huniq : ∀ t ∈ segs, t.1.checked = true → t = s) :
    (buttonsOf bar.buttonsLayout_).filter (fun b => b.checked) = [s.1] := by
  have hnd : (buttonsOf bar.buttonsLayout_).Nodup := by
    rw [chained_buttons ops _ _ _ hc]
    apply List.Nodup.of_map PathButton.id
    rw [List.map_map, List.map_reverse, List.nodup_reverse]
    exact hc.2.2.2.1
  have hmem : s.1 ∈ buttonsOf bar.buttonsLayout_ := by
    rw [chained_buttons ops _ _ _ hc]
    exact List.mem_map_of_mem _ (List.mem_reverse.mpr hs)
  have hfil : (buttonsOf bar.buttonsLayout_).filter (fun b => b.checked)
      = (buttonsOf bar.buttonsLayout_).filter (fun b => b == s.1) := by
    apply List.filter_congr
    intro b hb
    rw [chained_buttons ops _ _ _ hc] at hb
    obtain ⟨t, ht, rfl⟩ := List.mem_map.mp hb
    cases hchk : t.1.checked with
    | true =>
      rw [huniq t (List.mem_reverse.mp ht) hchk]; simp
    | false =>
      symm
      rw [beq_eq_false_iff_ne]
      intro e
      rw [e, hck] at hchk
      exact Bool.noConfusion hchk
  rw [hfil, List.filter_beq, List.count_eq_one_of_mem hnd hmem]
  rfl

theorem demoBar_eq :
    setPath demoOps 3 (PathBar.new DemoPath) (some DemoPath.user) = some demoBar := by
  rfl

theorem demoBar_reachable : Reachable demoOps demoBar :=
  Reachable.setPath _ _ 3 (some DemoPath.user) Reachable.new demoBar_eq

/-- C3. When `pathForButton` reconstructs `path` for the button `btn`:
`onButtonToggled` with `checked = true` records `btn` as the toggled button,
sets the current path to `path` and appends exactly one `chdir path` to the
emitted signals; with `checked = false` it changes nothing and emits nothing;
and `setChecked`, through which both a click on an unchecked button of the
layout and `setPath` check a button, does nothing on a button that is
already checked and otherwise has the same effect, the reconstructed path of
the button being still `path`. A click on a checked button either changes
nothing or, on a button alone in the row, unchecks it; a button that loses
its check leaves the toggled button, the current path and the emitted signals
as they are. -/
theorem onButtonToggled_emits_chdir {Q : Type} (ops : FilePathOps Q) (bar : PathBar Q)
    (btn : Nat) (path : FilePath Q) (h : pathForButton ops bar btn = some path) :
    (∃ bar2, onButtonToggled ops bar btn true = some bar2 ∧ bar2.toggledBtn_ = some btn ∧
      bar2.currentPath_ = path ∧ bar2.emitted = bar.emitted ++ [Signal.chdir path] ∧
      bar2.buttonsLayout_ = bar.buttonsLayout_) ∧
    onButtonToggled ops bar btn false = some bar ∧
    ((isChecked bar.buttonsLayout_ btn = true ∧ setChecked ops bar btn = some bar) ∨
      (isChecked bar.buttonsLayout_ btn = false ∧
        ∃ bar2, setChecked ops bar btn = some bar2 ∧ bar2.toggledBtn_ = some btn ∧
          bar2.currentPath_ = path ∧ pathForButton ops bar2 btn = some path ∧
          bar2.emitted = bar.emitted ++ [Signal.chdir path])) ∧
    clickButton ops bar btn =
      (if btn ∈ (buttonsOf bar.buttonsLayout_).map PathButton.id then
        if isChecked bar.buttonsLayout_ btn then
          if (buttonsOf bar.buttonsLayout_).length = 1 then setUnchecked ops bar btn
          else some bar
        else setChecked ops bar btn
      else some bar) ∧
    (∃ bar2, setUnchecked ops bar btn = some bar2 ∧ bar2.toggledBtn_ = bar.toggledBtn_ ∧
      bar2.currentPath_ = bar.currentPath_ ∧ bar2.emitted = bar.emitted) := by
  obtain ⟨b2, h1, h2, h3, h4, h5, _⟩ := onButtonToggled_true ops bar btn path h
  obtain ⟨b4, k1, k2, k3, k4, _⟩ := setUnchecked_spec ops bar btn
  refine ⟨⟨b2, h1, h2, h3, h4, h5⟩, onButtonToggled_false ops bar btn, ?_, rfl,
    ⟨b4, k1, k2, k3, k4⟩⟩
  cases hc : isChecked bar.buttonsLayout_ btn with
  | true => exact Or.inl ⟨rfl, by rw [setChecked_eq, hc]; rfl⟩
  | false =>
    obtain ⟨b3, g1, g2, _, g4, g5, g6, _⟩ := setChecked_unchecked ops bar btn path h hc
    exact Or.inr ⟨rfl, b3, g1, g5, g4,
      (pathForButton_checkExclusive ops bar b3 btn btn g2).trans h, g6⟩

theorem onButtonToggled_emits_chdir_witness :
    pathForButton demoOps demoBar 1 = some (some DemoPath.home) ∧
    (∃ bar2, onButtonToggled demoOps demoBar 1 true = some bar2 ∧ bar2.toggledBtn_ = some 1 ∧
      bar2.currentPath_ = some DemoPath.home ∧
      bar2.emitted = demoBar.emitted ++ [Signal.chdir (some DemoPath.home)] ∧
      bar2.buttonsLayout_ = demoBar.buttonsLayout_) :=
  have h : pathForButton demoOps demoBar 1 = some (some DemoPath.home) := by decide
  ⟨h, (onButtonToggled_emits_chdir demoOps demoBar 1 (some DemoPath.home) h).1⟩

theorem demoRootBar_eq :
    setPath demoOps 1 (PathBar.new DemoPath) (some DemoPath.root) = some demoRootBar := by
  rfl

theorem demoRootOff_eq : clickButton demoOps demoRootBar 0 = some demoRootOff := by
  rfl

theorem demoRootOff_reachable : Reachable demoOps demoRootOff :=
  Reachable.click _ _ 0 (Reachable.setPath _ _ 1 (some DemoPath.root) Reachable.new demoRootBar_eq)
    demoRootOff_eq

/-- C1, as the code has it. Over a path abstraction that satisfies `Lawful`,
for every valid path `q` and every bar state reachable through `setPath`
calls and button toggles in which `q` is not already the current path or
some segment button is checked, `setPath` with `q` completes once the loop
bound covers the parent chain of `q`; afterwards exactly one segment button
is checked, the path that `pathForButton` reconstructs for it is `q`, it is
the toggled button, and `q` is the current path. -/
theorem setPath_checks_path {Q : Type} [DecidableEq Q] (ops : FilePathOps Q)
    (hl : Lawful ops) (bar : PathBar Q) (hr : Reachable ops bar) (q : Q)
    (hq : bar.currentPath_ ≠ some q ∨
      (buttonsOf bar.buttonsLayout_).filter (fun x => x.checked) ≠ []) :
    ∃ n, ∀ fuel, n ≤ fuel → ∃ bar2 b, setPath ops fuel bar (some q) = some bar2 ∧
      bar2.currentPath_ = some q ∧
      (buttonsOf bar2.buttonsLayout_).filter (fun x => x.checked) = [b] ∧
      pathForButton ops bar2 b.id = some (some q) ∧ bar2.toggledBtn_ = some b.id := by
  obtain ⟨n, hn⟩ := hl.reaches_root q
  obtain ⟨l, hl2⟩ := Option.isSome_iff_exists.mp hn
  refine ⟨n, fun fuel hf => ?_⟩
  have hchain := parentChain_mono ops n fuel q l hl2 hf
  have hinv := reachable_barInvW ops hl bar hr
  rcases setPath_spec ops hl fuel bar (some q) hinv with
    ⟨q2, h1, h2, _⟩ | ⟨bar2, h1, h3, hcase⟩
  · rw [← Option.some.inj h1, hchain] at h2
    exact absurd h2 (by simp)
  · rcases hcase with ⟨hsame, hcurq⟩ | hstrong
    · -- the same-path guard returned: some button was checked before the call
      subst hsame
      have hne : (buttonsOf bar2.buttonsLayout_).filter (fun x => x.checked) ≠ [] := by
        rcases hq with hq | hq
        · exact absurd hcurq hq
        · exact hq
      rcases hinv with ⟨hnone, _⟩ | ⟨segs, s, hc, hs, hcur, htog, huniq⟩
      · rw [hcurq] at hnone; exact absurd hnone (by simp)
      · have hsq : s.2 = q := by
          rw [hcur] at hcurq; exact Option.some.inj hcurq
        obtain ⟨b, hb⟩ := List.exists_mem_of_ne_nil _ hne
        obtain ⟨hb1, hb2⟩ := List.mem_filter.mp hb
        rw [chained_buttons ops _ _ _ hc] at hb1
        obtain ⟨t, ht, rfl⟩ := List.mem_map.mp hb1
        have hts := huniq t (List.mem_reverse.mp ht) hb2
        have hck : s.1.checked = true := by rw [← hts]; exact hb2
        refine ⟨bar2, s.1, h1, h3, checked_filter ops bar2 segs s hc hs hck huniq, ?_, htog⟩
        rw [pathForButton_segment ops hl bar2 segs s hc hs, hsq]
    · rcases hstrong with ⟨hnone, _⟩ | ⟨segs, s, hc, hs, hck, hcur, htog, huniq⟩
      · rw [h3] at hnone; exact absurd hnone (by simp)
      · have hsq : s.2 = q := by
          rw [hcur] at h3; exact Option.some.inj h3
        refine ⟨bar2, s.1, h1, h3, checked_filter ops bar2 segs s hc hs hck huniq, ?_, htog⟩
        rw [pathForButton_segment ops hl bar2 segs s hc hs, hsq]

theorem setPath_checks_path_witness :
    Lawful demoOps ∧ Reachable demoOps demoBar ∧
    (demoBar.currentPath_ ≠ some DemoPath.games ∨
      (buttonsOf demoBar.buttonsLayout_).filter (fun x => x.checked) ≠ []) ∧
    ∃ n, ∀ fuel, n ≤ fuel → ∃ bar2 b,
      setPath demoOps fuel demoBar (some DemoPath.games) = some bar2 ∧
      bar2.currentPath_ = some DemoPath.games ∧
      (buttonsOf bar2.buttonsLayout_).filter (fun x => x.checked) = [b] ∧
      pathForButton demoOps bar2 b.id = some (some DemoPath.games) ∧
      bar2.toggledBtn_ = some b.id :=
  have hq : demoBar.currentPath_ ≠ some DemoPath.games ∨
      (buttonsOf demoBar.buttonsLayout_).filter (fun x => x.checked) ≠ [] :=
    Or.inl (by decide)
  ⟨demoOps_lawful, demoBar_reachable, hq,
    setPath_checks_path demoOps demoOps_lawful demoBar demoBar_reachable DemoPath.games hq⟩

/-- C1 as stated fails in two ways. For the invalid path: `setPath` with the
null path on the reachable bar showing `/home/user` completes for every loop
bound and leaves no button at all. For a valid path: on the reachable bar
that shows `/` and whose one button has been clicked a second time, which
unchecks it, `setPath` with `/` returns without a change for every loop
bound, so the one button stays unchecked. -/
theorem setPath_checks_nothing :
    (Reachable demoOps demoBar ∧
      ∀ fuel, (setPath demoOps fuel demoBar none).map
        (fun b => (b.currentPath_, buttonsOf b.buttonsLayout_)) = some (none, [])) ∧
    (Reachable demoOps demoRootOff ∧
      ∀ fuel, (setPath demoOps fuel demoRootOff (some DemoPath.root)).map
        (fun b => (b.currentPath_,
          (buttonsOf b.buttonsLayout_).filter (fun x => x.checked)))
        = some (some DemoPath.root, [])) := by
  refine ⟨⟨demoBar_reachable, fun fuel => ?_⟩, ⟨demoRootOff_reachable, fun fuel => ?_⟩⟩
  · cases fuel <;> rfl
  · rfl

theorem buttonsOf_map_checkExclusive (btn : Nat) (l : List LayoutItem) :
    buttonsOf (l.map (checkExclusive btn))
      = (buttonsOf l).map (fun b => { b with checked := decide (b.id = btn) }) := by
  induction l with
  | nil => rfl
  | cons item rest ih =>
    cases item with
    | spacer => simpa [buttonsOf, checkExclusive] using ih
    | widget b => simp [buttonsOf, checkExclusive, ih]

theorem checkSegment_unique {Q : Type} (segs : List (PathButton × Q))
    (hn : (segs.map (fun s => s.1.id)).Nodup) (t : PathButton × Q) (ht : t ∈ segs) :
    ∀ u ∈ segs.map (checkSegment t.1.id), u.1.checked = true → u = checkSegment t.1.id t := by
  intro u hu hck
  obtain ⟨v, hv, rfl⟩ := List.mem_map.mp hu
  have e : v.1.id = t.1.id := by simpa [checkSegment] using hck
  rw [segments_inj segs hn v t hv ht e]

/-- C2. Over a lawful path abstraction whose prefix test only holds for
ancestors: if a reachable bar displays `p1` and `p2` is a prefix of `p1`
different from it, then `setPath` with `p2` completes whatever the loop
bound, without creating or destroying a button: the layout afterwards is the
layout before with only the toggle states changed (same identities, names,
texts and root flags, in the same order, and no identity handed out), and
the one checked button is an existing button whose reconstructed path was
`p2`; it becomes the toggled button and `p2` the current path. -/
theorem setPath_reuses_button {Q : Type} [DecidableEq Q] (ops : FilePathOps Q)
    (hl : Lawful ops) (hp : PrefixIsAncestor ops) (bar : PathBar Q) (hr : Reachable ops bar)
    (p1 p2 : Q) (h1 : bar.currentPath_ = some p1) (h2 : ops.isPrefixOf p2 p1 = true)
    (hne : p2 ≠ p1) (fuel : Nat) :
    ∃ bar2 b, setPath ops fuel bar (some p2) = some bar2 ∧
      b ∈ buttonsOf bar.buttonsLayout_ ∧ pathForButton ops bar b.id = some (some p2) ∧
      bar2.buttonsLayout_ = bar.buttonsLayout_.map (checkExclusive b.id) ∧
      (buttonsOf bar2.buttonsLayout_).map (fun x => (x.id, x.name_, x.text, x.isRoot))
        = (buttonsOf bar.buttonsLayout_).map (fun x => (x.id, x.name_, x.text, x.isRoot)) ∧
      bar2.nextId = bar.nextId ∧
      (buttonsOf bar2.buttonsLayout_).filter (fun x => x.checked)
        = [{ b with checked := true }] ∧
      bar2.currentPath_ = some p2 ∧ bar2.toggledBtn_ = some b.id := by
  rcases reachable_barInvW ops hl bar hr with
    ⟨hnone, _⟩ | ⟨segs, s, hc, hs, hcur, htog, huniq⟩
  · rw [h1] at hnone; exact absurd hnone (by simp)
  · have hs2 : s.2 = p1 := by
      rw [hcur] at h1; exact Option.some.inj h1
    have hneq : bar.currentPath_ ≠ some p2 := by
      rw [h1]; intro e; exact hne (Option.some.inj e).symm
    -- the segment of `p2` exists
    have hex : ∃ t ∈ segs, t.2 = p2 := by
      obtain ⟨n, l, hl1, hmem⟩ := hp p2 p1 h2
      obtain ⟨X, Y, hXY⟩ := List.append_of_mem hs
      obtain ⟨⟨n0, p0, hchain⟩, _⟩ := hc
      rw [hXY, List.map_append, List.map_cons] at hchain
      obtain ⟨m, hm⟩ := parentChain_suffix ops n0 p0 s.2 _ _ hchain
      rw [hs2] at hm
      have hl3 := parentChain_unique ops n m p1 _ _ hl1 hm
      rw [hl3, List.mem_cons] at hmem
      rcases hmem with hmem | hmem
      · exact absurd hmem hne
      · obtain ⟨t, ht, e⟩ := List.mem_map.mp hmem
        exact ⟨t, by rw [hXY]; simp [ht], e⟩
    rcases findExisting_chained ops hl { bar with currentPath_ := some p2 } segs s.2 p2 hc rfl
      with ⟨_, hno⟩ | ⟨t, ht, htc, _, hfound⟩
    · exfalso
      rcases hno with hno | hno
      · rw [hs2, h2] at hno; exact Bool.noConfusion hno
      · obtain ⟨t, ht, e⟩ := hex
        exact hno t ht e
    · have hunchecked : t.1.checked = false := by
        rw [Bool.eq_false_iff]
        intro hchecked
        have e := huniq t ht hchecked
        apply hne
        rw [← htc, e, hs2]
      obtain ⟨b2, g1, g2, g3, g4, g5, _, _, _, _⟩ :=
        setChecked_segment ops hl { bar with currentPath_ := some p2 } segs t hc ht hunchecked
      have hf2 : findExisting ops bar.currentPath_ { bar with currentPath_ := some p2 }
          = some (some t.1.id) := by rw [hcur]; exact hfound
      have hmemb : t.1 ∈ buttonsOf bar.buttonsLayout_ := by
        rw [chained_buttons ops _ _ _ hc]
        exact List.mem_map_of_mem _ (List.mem_reverse.mpr ht)
      have hc2 : Chained ops b2.buttonsLayout_ b2.nextId (segs.map (checkSegment t.1.id)) := by
        rw [g2, g3]
        exact chained_checkSegment ops _ _ segs t.1.id hc
      have hfilter := checked_filter ops b2 _ (checkSegment t.1.id t) hc2
        (List.mem_map_of_mem _ ht) (by simp [checkSegment])
        (checkSegment_unique segs hc.2.2.2.1 t ht)
      refine ⟨b2, t.1, ?_, hmemb, ?_, g2, ?_, g3, ?_, by rw [g4, htc], g5⟩
      · rw [setPath_found ops fuel bar (some p2) t.1.id hneq hf2]; exact g1
      · rw [pathForButton_segment ops hl bar segs t hc ht, htc]
      · have g2b : b2.buttonsLayout_ = bar.buttonsLayout_.map (checkExclusive t.1.id) := g2
        rw [g2b, buttonsOf_map_checkExclusive, List.map_map]
        rfl
      · rw [hfilter]; simp [checkSegment]

theorem setPath_reuses_button_witness :
    Lawful demoOps ∧ PrefixIsAncestor demoOps ∧ Reachable demoOps demoBar ∧
    demoBar.currentPath_ = some DemoPath.user ∧
    demoOps.isPrefixOf DemoPath.home DemoPath.user = true ∧ DemoPath.home ≠ DemoPath.user ∧
    ∃ bar2 b, setPath demoOps 0 demoBar (some DemoPath.home) = some bar2 ∧
      b ∈ buttonsOf demoBar.buttonsLayout_ ∧
      pathForButton demoOps demoBar b.id = some (some DemoPath.home) ∧
      bar2.buttonsLayout_ = demoBar.buttonsLayout_.map (checkExclusive b.id) ∧
      (buttonsOf bar2.buttonsLayout_).map (fun x => (x.id, x.name_, x.text, x.isRoot))
        = (buttonsOf demoBar.buttonsLayout_).map (fun x => (x.id, x.name_, x.text, x.isRoot)) ∧
      bar2.nextId = demoBar.nextId ∧
      (buttonsOf bar2.buttonsLayout_).filter (fun x => x.checked)
        = [{ b with checked := true }] ∧
      bar2.currentPath_ = some DemoPath.home ∧ bar2.toggledBtn_ = some b.id :=
  ⟨demoOps_lawful, demoOps_prefixIsAncestor, demoBar_reachable, rfl, by decide, by decide,
    setPath_reuses_button demoOps demoOps_lawful demoOps_prefixIsAncestor demoBar
      demoBar_reachable DemoPath.user DemoPath.home rfl (by decide) (by decide) 0⟩

theorem newSegments_names {Q : Type} [DecidableEq Q] (ops : FilePathOps Q) (nid : Nat)
    (l : List Q) :
    (newSegments ops nid l).map (fun s => s.1.name_) = l.map (segmentName ops) ∧
    (newSegments ops nid l).map (fun s => s.1.isRoot) = l.map (isRootPath ops) := by
  induction l generalizing nid with
  | nil => exact ⟨rfl, rfl⟩
  | cons q rest ih => simp [newSegments, mkButton, (ih (nid + 1)).1, (ih (nid + 1)).2]

theorem lastSectionAux_spec (l cur : List Char) :
    ('/' ∉ l ∧ lastSectionAux l cur = cur ++ l) ∨
    (∃ pre last, l = pre ++ '/' :: last ∧ '/' ∉ last ∧ lastSectionAux l cur = last) := by
  induction l generalizing cur with
  | nil => exact Or.inl ⟨by simp, by simp [lastSectionAux]⟩
  | cons c cs ih =>
    by_cases e : c = '/'
    · subst e
      rcases ih [] with ⟨h1, h2⟩ | ⟨pre, last, h1, h2, h3⟩
      · exact Or.inr ⟨[], cs, rfl, h1, by simpa [lastSectionAux] using h2⟩
      · exact Or.inr ⟨'/' :: pre, last, by simp [h1], h2, by simpa [lastSectionAux] using h3⟩
    · rcases ih (cur ++ [c]) with ⟨h1, h2⟩ | ⟨pre, last, h1, h2, h3⟩
      · refine Or.inl ⟨?_, by simpa [lastSectionAux, e] using h2⟩
        intro hm
        rcases List.mem_cons.mp hm with hm | hm
        · exact e hm.symm
        · exact h1 hm
      · exact Or.inr ⟨c :: pre, last, by simp [h1], h2, by simpa [lastSectionAux, e] using h3⟩

/-- `lastSection` is the whole string when it has no slash, and otherwise the
characters after its last slash. -/
theorem lastSection_spec (s : String) :
    ('/' ∉ s.data ∧ lastSection s = s) ∨
    (∃ pre last, s.data = pre ++ '/' :: last ∧ '/' ∉ last ∧ lastSection s = String.mk last) := by
  rcases lastSectionAux_spec s.data [] with ⟨h1, h2⟩ | ⟨pre, last, h1, h2, h3⟩
  · refine Or.inl ⟨h1, ?_⟩
    simp only [lastSection, h2, List.nil_append]
  · exact Or.inr ⟨pre, last, h1, h2, by simp only [lastSection, h3]⟩

/-- C4. For a valid path `p` whose parent chain `l` reaches a root within `n`
steps, the rebuild branch of `setPath`, run with any loop bound of at least
`n` on a bar whose current path is `p`, completes. With `r` the root and
`ds` the descendants of `r` on the way to `p`, the last of them `p` itself,
the layout then holds the buttons `bs` followed by one spacer: the first
button carries the full string of `r` and is the only one flagged as root,
the following ones carry the last component of the strings of `ds`, in that
order, the last component of a string being the string itself when it has
no slash and otherwise the characters after its last slash. Every button is
new: it has none of the identities of the buttons held before, and the
previous items are gone. -/
theorem rebuild_creates_chain {Q : Type} [DecidableEq Q] (ops : FilePathOps Q)
    (fuel n : Nat) (bar : PathBar Q) (p : Q) (l : List Q)
    (hq : bar.currentPath_ = some p) (hc : parentChain ops n p = some l) (hf : n ≤ fuel)
    (hids : ∀ b ∈ buttonsOf bar.buttonsLayout_, b.id < bar.nextId) :
    ∃ (bar2 : PathBar Q) (r : Q) (ds : List Q) (bs : List PathButton),
      rebuild ops fuel bar = some bar2 ∧
      l.reverse = r :: ds ∧ (r :: ds).getLast? = some p ∧ isRootPath ops r = true ∧
      (∀ d ∈ ds, isRootPath ops d = false) ∧
      bar2.buttonsLayout_ = bs.map LayoutItem.widget ++ [LayoutItem.spacer] ∧
      bs.map PathButton.name_ = ops.toString r :: ds.map (fun d => lastSection (ops.toString d)) ∧
      bs.map PathButton.isRoot = true :: ds.map (fun _ => false) ∧
      (∀ b ∈ bs, ∀ b0 ∈ buttonsOf bar.buttonsLayout_, b.id ≠ b0.id) ∧
      (∀ s : String, ('/' ∉ s.data ∧ lastSection s = s) ∨
        ∃ pre last, s.data = pre ++ '/' :: last ∧ '/' ∉ last ∧
          lastSection s = String.mk last) := by
  have hchain := parentChain_mono ops n fuel p l hc hf
  obtain ⟨r, ds, hrev, hroot, hds, hlast⟩ := parentChain_roots ops n p l hc
  obtain ⟨t, rfl⟩ := parentChain_head ops n p l hc
  have hcb : createButtons ops fuel bar.currentPath_ [] bar.nextId
      = some ((newSegments ops bar.nextId (p :: t)).reverse.map (fun s => LayoutItem.widget s.1),
          bar.nextId + (p :: t).length) := by
    rw [hq, createButtons_eq, hchain]; simp
  rw [rebuild_some ops fuel bar _ _ hcb]
  rw [checkLastButton_segments ops _ (mkButton ops bar.nextId p, p)
    (newSegments ops (bar.nextId + 1) t) rfl]
  obtain ⟨path, hpath⟩ := pathForButton_widgets ops
    { bar with
      updatesEnabled := false
      toggledBtn_ := none
      buttonsLayout_ := (newSegments ops bar.nextId (p :: t)).reverse.map
        (fun s => LayoutItem.widget s.1) ++ [LayoutItem.spacer]
      nextId := bar.nextId + (p :: t).length
      pending := bar.pending ++ [Deferred.setScrollButtonVisibility] }
    (newSegments ops bar.nextId (p :: t)).reverse bar.nextId rfl
  have hunchecked : isChecked
      ((newSegments ops bar.nextId (p :: t)).reverse.map (fun s => LayoutItem.widget s.1)
        ++ [LayoutItem.spacer]) bar.nextId = false := by
    rw [Bool.eq_false_iff]
    intro h
    obtain ⟨b, hb, _, hck⟩ := (isChecked_iff _ _).mp h
    rw [buttonsOf_segments] at hb
    simp only [buttonsOf, List.append_nil] at hb
    obtain ⟨s, hs, rfl⟩ := List.mem_map.mp hb
    rw [(newSegments_mem ops _ _ s (List.mem_reverse.mp hs)).1] at hck
    exact Bool.noConfusion hck
  obtain ⟨b2, g1, g2, _⟩ := setChecked_unchecked ops _ bar.nextId path hpath hunchecked
  have hnames := newSegments_names ops bar.nextId (p :: t)
  refine ⟨{ b2 with updatesEnabled := true }, r, ds,
    (newSegments ops bar.nextId (p :: t)).reverse.map
      (fun s => { s.1 with checked := decide (s.1.id = bar.nextId) }),
    ?_, hrev, hlast, hroot, hds, ?_, ?_, ?_, ?_, lastSection_spec⟩
  · have g1b : setChecked ops _ (mkButton ops bar.nextId p, p).1.id = some b2 := g1
    rw [g1b]; rfl
  · have g2b : b2.buttonsLayout_ =
        ((newSegments ops bar.nextId (p :: t)).reverse.map (fun s => LayoutItem.widget s.1)
          ++ [LayoutItem.spacer]).map (checkExclusive bar.nextId) := g2
    show b2.buttonsLayout_ = _
    rw [g2b]
    simp [List.map_map, Function.comp_def, checkExclusive]
  · rw [List.map_map]
    have e : (PathButton.name_ ∘ fun (s : PathButton × Q) =>
        ({ s.1 with checked := decide (s.1.id = bar.nextId) } : PathButton))
        = fun s => s.1.name_ := rfl
    rw [e, List.map_reverse, hnames.1, ← List.map_reverse, hrev, List.map_cons]
    congr 1
    · simp [segmentName, hroot]
    · apply List.map_congr_left
      intro d hd
      simp [segmentName, hds d hd]
  · rw [List.map_map]
    have e : (PathButton.isRoot ∘ fun (s : PathButton × Q) =>
        ({ s.1 with checked := decide (s.1.id = bar.nextId) } : PathButton))
        = fun s => s.1.isRoot := rfl
    rw [e, List.map_reverse, hnames.2, ← List.map_reverse, hrev, List.map_cons, hroot]
    congr 1
    apply List.map_congr_left
    intro d hd
    exact hds d hd
  · intro b hb b0 hb0 e
    obtain ⟨s, hs, rfl⟩ := List.mem_map.mp hb
    have h1 := (newSegments_mem ops _ _ s (List.mem_reverse.mp hs)).2.1
    have h2 := hids b0 hb0
    simp only at e
    omega

theorem rebuild_creates_chain_witness :
    demoBar.currentPath_ = some DemoPath.user ∧
    parentChain demoOps 3 DemoPath.user = some [DemoPath.user, DemoPath.home, DemoPath.root] ∧
    3 ≤ 5 ∧ (∀ b ∈ buttonsOf demoBar.buttonsLayout_, b.id < demoBar.nextId) ∧
    (∃ (bar2 : PathBar DemoPath) (r : DemoPath) (ds : List DemoPath) (bs : List PathButton),
      rebuild demoOps 5 demoBar = some bar2 ∧
      [DemoPath.user, DemoPath.home, DemoPath.root].reverse = r :: ds ∧
      (r :: ds).getLast? = some DemoPath.user ∧ isRootPath demoOps r = true ∧
      (∀ d ∈ ds, isRootPath demoOps d = false) ∧
      bar2.buttonsLayout_ = bs.map LayoutItem.widget ++ [LayoutItem.spacer] ∧
      bs.map PathButton.name_
        = demoOps.toString r :: ds.map (fun d => lastSection (demoOps.toString d)) ∧
      bs.map PathButton.isRoot = true :: ds.map (fun _ => false) ∧
      (∀ b ∈ bs, ∀ b0 ∈ buttonsOf demoBar.buttonsLayout_, b.id ≠ b0.id) ∧
      (∀ s : String, ('/' ∉ s.data ∧ lastSection s = s) ∨
        ∃ pre last, s.data = pre ++ '/' :: last ∧ '/' ∉ last ∧
          lastSection s = String.mk last)) ∧
    (rebuild demoOps 5 demoBar).map
        (fun b => (buttonsOf b.buttonsLayout_).map (fun x => (x.id, x.name_, x.isRoot)))
      = some [(5, "/", true), (4, "home", false), (3, "user", false)] :=
  have hids : ∀ b ∈ buttonsOf demoBar.buttonsLayout_, b.id < demoBar.nextId := by decide
  ⟨rfl, rfl, by decide, hids,
    rebuild_creates_chain demoOps 5 3 demoBar DemoPath.user
      [DemoPath.user, DemoPath.home, DemoPath.root] rfl rfl (by decide) hids, by rfl⟩

/-- Under the bar invariant every button held has an identity below `nextId`,
so the buttons a rebuild creates are different objects. -/
theorem barInv_ids {Q : Type} [DecidableEq Q] (ops : FilePathOps Q) (bar : PathBar Q)
    (h : BarInv ops bar) : ∀ b ∈ buttonsOf bar.buttonsLayout_, b.id < bar.nextId := by
  rcases h with ⟨_, hlay⟩ | ⟨segs, s, hc, _⟩
  · rcases hlay with hlay | hlay <;> simp [hlay, buttonsOf]
  · intro b hb
    rw [chained_buttons ops _ _ _ hc] at hb
    obtain ⟨t, ht, rfl⟩ := List.mem_map.mp hb
    exact hc.2.2.2.2 t (List.mem_reverse.mp ht)

/-! ## PathBar: the editor and the arrows; RenameDialog: the initial selection -/

theorem sameArrows_refl {Q : Type} (bar : PathBar Q) : SameArrows bar bar :=
  ⟨rfl, rfl, rfl⟩

theorem onButtonToggled_sameArrows {Q : Type} (ops : FilePathOps Q) (bar bar2 : PathBar Q)
    (btn : Nat) (checked : Bool) (h : onButtonToggled ops bar btn checked = some bar2) :
    SameArrows bar bar2 := by
  cases checked with
  | false =>
    rw [onButtonToggled_false] at h
    rw [← Option.some.inj h]; exact sameArrows_refl bar
  | true =>
    simp only [onButtonToggled, if_true] at h
    split at h
    · exact absurd h (by simp)
    · split at h <;> (rw [← Option.some.inj h]; exact ⟨rfl, rfl, rfl⟩)

theorem setChecked_sameArrows {Q : Type} (ops : FilePathOps Q) (bar bar2 : PathBar Q)
    (btn : Nat) (h : setChecked ops bar btn = some bar2) : SameArrows bar bar2 := by
  rw [setChecked_eq] at h
  split at h
  · rw [← Option.some.inj h]; exact sameArrows_refl bar
  · have h2 := onButtonToggled_sameArrows ops _ bar2 btn true h
    exact ⟨h2.1, h2.2.1, h2.2.2⟩

theorem setUnchecked_sameArrows {Q : Type} (ops : FilePathOps Q) (bar bar2 : PathBar Q)
    (btn : Nat) (h : setUnchecked ops bar btn = some bar2) : SameArrows bar bar2 := by
  obtain ⟨b, h1, _, _, _, _, h6, h7, h8, _⟩ := setUnchecked_spec ops bar btn
  rw [h1] at h
  rw [← Option.some.inj h]
  exact ⟨h6, h7, h8⟩

theorem clickButton_sameArrows {Q : Type} (ops : FilePathOps Q) (bar bar2 : PathBar Q)
    (btn : Nat) (h : clickButton ops bar btn = some bar2) : SameArrows bar bar2 := by
  simp only [clickButton] at h
  split at h
  · split at h
    · split at h
      · exact setUnchecked_sameArrows ops bar bar2 btn h
      · rw [← Option.some.inj h]; exact sameArrows_refl bar
    · exact setChecked_sameArrows ops bar bar2 btn h
  · rw [← Option.some.inj h]; exact sameArrows_refl bar

theorem checkLastButton_sameArrows {Q : Type} (ops : FilePathOps Q) (bar bar2 : PathBar Q)
    (h : checkLastButton ops bar = some bar2) : SameArrows bar bar2 := by
  simp only [checkLastButton] at h
  split at h
  · split at h
    · exact setChecked_sameArrows ops bar bar2 _ h
    · exact absurd h (by simp)
  · rw [← Option.some.inj h]; exact sameArrows_refl bar

theorem rebuild_sameArrows {Q : Type} [DecidableEq Q] (ops : FilePathOps Q) (fuel : Nat)
    (bar bar2 : PathBar Q) (h : rebuild ops fuel bar = some bar2) : SameArrows bar bar2 := by
  cases hc : createButtons ops fuel bar.currentPath_ [] bar.nextId with
  | none =>
    rw [rebuild_none ops fuel bar hc] at h
    exact absurd h (by simp)
  | some r =>
    obtain ⟨layout, nextId⟩ := r
    rw [rebuild_some ops fuel bar layout nextId hc] at h
    obtain ⟨b, hb, rfl⟩ := Option.map_eq_some'.mp h
    have hb2 := checkLastButton_sameArrows ops _ b hb
    exact ⟨hb2.1, hb2.2.1, hb2.2.2⟩

theorem setPath_sameArrows {Q : Type} [DecidableEq Q] (ops : FilePathOps Q) (fuel : Nat)
    (bar bar2 : PathBar Q) (path : FilePath Q) (h : setPath ops fuel bar path = some bar2) :
    SameArrows bar bar2 := by
  simp only [setPath] at h
  split at h
  · rw [← Option.some.inj h]; exact sameArrows_refl bar
  · split at h
    · exact absurd h (by simp)
    · have h2 := setChecked_sameArrows ops _ bar2 _ h
      exact ⟨h2.1, h2.2.1, h2.2.2⟩
    · have h2 := rebuild_sameArrows ops fuel _ bar2 h
      exact ⟨h2.1, h2.2.1, h2.2.2⟩

theorem editorHidesArrows_of_sameArrows {Q : Type} (bar bar2 : PathBar Q)
    (h : SameArrows bar bar2) (hinv : EditorHidesArrows bar) : EditorHidesArrows bar2 := by
  intro hopen
  rw [h.1] at hopen
  rw [h.2.1, h.2.2]
  exact hinv hopen

theorem editorHidesArrows_openEditor {Q : Type} (ops : FilePathOps Q) (bar : PathBar Q)
    (hinv : EditorHidesArrows bar) : EditorHidesArrows (openEditor ops bar) := by
  intro _
  cases he : bar.tempPathEdit_ with
  | none => simp [openEditor, he]
  | some text =>
    have h := hinv (by rw [he]; simp)
    simpa [openEditor, he] using h

theorem editorHidesArrows_closeEditor {Q : Type} (bar : PathBar Q) (layoutValid : Bool)
    (view : ScrollView) (hinv : EditorHidesArrows bar) :
    EditorHidesArrows (closeEditor bar layoutValid view) := by
  cases he : bar.tempPathEdit_ with
  | none =>
    intro hopen
    simp [closeEditor, he] at hopen
  | some text =>
    cases layoutValid with
    | false =>
      have e : closeEditor bar false view = bar := by simp [closeEditor, he]
      rw [e]; exact hinv
    | true =>
      intro hopen
      exfalso
      apply hopen
      simp only [closeEditor, he, updateScrollButtonVisibility]
      simp

theorem editorHidesArrows_setScrollButtonVisibility {Q : Type} (bar : PathBar Q)
    (view : ScrollView) : EditorHidesArrows (setScrollButtonVisibility bar view) := by
  intro hopen
  cases he : bar.tempPathEdit_ with
  | none =>
    exfalso
    apply hopen
    cases ho : view.overflow <;> simp [setScrollButtonVisibility, he, ho]
  | some text => simp [setScrollButtonVisibility, he]

theorem setArrowEnabledState_sameArrows {Q : Type} (bar : PathBar Q) (view : ScrollView) :
    SameArrows bar (setArrowEnabledState bar view) := by
  simp only [setArrowEnabledState]
  split <;> exact ⟨rfl, rfl, rfl⟩

theorem editorHidesArrows_applyOp {Q : Type} [DecidableEq Q] (ops : FilePathOps Q)
    (bar bar2 : PathBar Q) (op : BarOp Q) (h : applyOp ops bar op = some bar2)
    (hinv : EditorHidesArrows bar) : EditorHidesArrows bar2 := by
  cases op with
  | openEditor =>
    rw [← Option.some.inj h]; exact editorHidesArrows_openEditor ops bar hinv
  | closeEditor layoutValid view =>
    rw [← Option.some.inj h]; exact editorHidesArrows_closeEditor bar layoutValid view hinv
  | setPath fuel path =>
    exact editorHidesArrows_of_sameArrows bar bar2 (setPath_sameArrows ops fuel bar bar2 path h) hinv
  | setScrollButtonVisibility view =>
    rw [← Option.some.inj h]; exact editorHidesArrows_setScrollButtonVisibility bar view
  | setArrowEnabledState view =>
    rw [← Option.some.inj h]
    exact editorHidesArrows_of_sameArrows bar _ (setArrowEnabledState_sameArrows bar view) hinv
  | click btn =>
    exact editorHidesArrows_of_sameArrows bar bar2 (clickButton_sameArrows ops bar bar2 btn h) hinv

theorem editorHidesArrows_runOps {Q : Type} [DecidableEq Q] (ops : FilePathOps Q)
    (steps : List (BarOp Q)) (bar bar2 : PathBar Q) (h : runOps ops bar steps = some bar2)
    (hinv : EditorHidesArrows bar) : EditorHidesArrows bar2 := by
  induction steps generalizing bar with
  | nil =>
    rw [← Option.some.inj h]; exact hinv
  | cons op rest ih =>
    simp only [runOps] at h
    obtain ⟨b, hb, hrest⟩ := Option.bind_eq_some.mp h
    exact ih b hrest (editorHidesArrows_applyOp ops bar b op hb hinv)

theorem editorHidesArrows_new (Q : Type) : EditorHidesArrows (PathBar.new Q) :=
  fun h => absurd rfl h

/-- C11. In every bar state reached from a new bar by a completed sequence
of `openEditor`, `closeEditor`, `setPath`, `setScrollButtonVisibility` and
`setArrowEnabledState` operations (and clicks on segment buttons), whatever
the geometry and scroll position each of them sees, if the path editor is
open then both scroll arrows are hidden. -/
theorem arrows_hidden_while_editing {Q : Type} [DecidableEq Q] (ops : FilePathOps Q)
    (steps : List (BarOp Q)) (bar : PathBar Q)
    (h : runOps ops (PathBar.new Q) steps = some bar) (hopen : bar.tempPathEdit_ ≠ none) :
    bar.scrollToStartVisible = false ∧ bar.scrollToEndVisible = false :=
  editorHidesArrows_runOps ops steps (PathBar.new Q) bar h (editorHidesArrows_new Q) hopen

theorem arrows_hidden_while_editing_witness :
    ∃ bar, runOps demoOps (PathBar.new DemoPath) demoSteps = some bar ∧
      bar.tempPathEdit_ = some "/home/user" ∧
      bar.scrollToStartVisible = false ∧ bar.scrollToEndVisible = false := by
  have hs : (runOps demoOps (PathBar.new DemoPath) demoSteps).isSome = true := by rfl
  obtain ⟨bar, hb⟩ := Option.isSome_iff_exists.mp hs
  have ht : (runOps demoOps (PathBar.new DemoPath) demoSteps).map (fun b => b.tempPathEdit_)
      = some (some "/home/user") := by rfl
  rw [hb] at ht
  have ht2 : bar.tempPathEdit_ = some "/home/user" := by simpa using ht
  exact ⟨bar, hb, ht2,
    arrows_hidden_while_editing demoOps demoSteps bar hb (by rw [ht2]; simp)⟩

theorem lastIndexOfAux_spec (c : Char) (l : List Char) (i best : Int) :
    (c ∉ l ∧ lastIndexOfAux c l i best = best) ∨
    (∃ stem ext, l = stem ++ c :: ext ∧ c ∉ ext ∧
      lastIndexOfAux c l i best = i + (stem.length : Int)) := by
  induction l generalizing i best with
  | nil => exact Or.inl ⟨by simp, rfl⟩
  | cons x xs ih =>
    simp only [lastIndexOfAux]
    rcases ih (i + 1) (if x = c then i else best) with ⟨h1, h2⟩ | ⟨stem, ext, h1, h2, h3⟩
    · by_cases e : x = c
      · refine Or.inr ⟨[], xs, by simp [e], h1, ?_⟩
        rw [h2]; simp [e]
      · refine Or.inl ⟨?_, by rw [h2]; simp [e]⟩
        intro hm
        rcases List.mem_cons.mp hm with hm | hm
        · exact e hm.symm
        · exact h1 hm
    · refine Or.inr ⟨x :: stem, ext, by simp [h1], h2, ?_⟩
      rw [h3]; simp only [List.length_cons]; push_cast; ring

/-- `lastIndexOf` is `-1` when the character does not occur, and otherwise
the number of characters before its last occurrence. -/
theorem lastIndexOf_spec (s : String) (c : Char) :
    (c ∉ s.data ∧ lastIndexOf s c = -1) ∨
    (∃ stem ext, s.data = stem ++ c :: ext ∧ c ∉ ext ∧
      lastIndexOf s c = (stem.length : Int)) := by
  rcases lastIndexOfAux_spec c s.data 0 (-1) with h | ⟨stem, ext, h1, h2, h3⟩
  · exact Or.inl h
  · exact Or.inr ⟨stem, ext, h1, h2, by simpa [lastIndexOf] using h3⟩

theorem new_fileName {Q : Type} [DecidableEq Q] (ops : FilePathOps Q) (src dest : FileInfo Q) :
    (RenameDialog.new ops src dest).fileName = ops.baseName dest.path ∧
    (RenameDialog.new ops src dest).oldName_ = ops.baseName dest.path ∧
    (RenameDialog.new ops src dest).selection = initialSelection (ops.baseName dest.path) := by
  simp only [RenameDialog.new, setupUi]
  split <;> exact ⟨rfl, rfl, rfl⟩

/-- The selection on some file names: up to the last extension, and the whole
name when there is no dot, only a leading dot, or a trailing dot. -/
theorem initialSelection_examples :
    initialSelection "archive.tar.gz" = (0, 11) ∧ initialSelection "README" = (0, 6) ∧
    initialSelection ".bashrc" = (0, 7) ∧ initialSelection "file." = (0, 5) := by
  decide

/-- C12. In a freshly constructed dialog the text of the file-name field and
the remembered original name are the destination's base name, of length `n`;
with `d` the position of the last dot of that name (`-1` when the name has no
dot, otherwise the number of characters in front of the last dot), the
selection starts at the beginning of the field and spans `d` characters when
`0 < d < n - 1`, and the whole name otherwise. -/
theorem RenameDialog.initial_selection {Q : Type} [DecidableEq Q] (ops : FilePathOps Q)
    (src dest : FileInfo Q) :
    (RenameDialog.new ops src dest).fileName = ops.baseName dest.path ∧
    (RenameDialog.new ops src dest).oldName_ = ops.baseName dest.path ∧
    (RenameDialog.new ops src dest).selection =
      (if 0 < lastIndexOf (ops.baseName dest.path) '.' ∧
          lastIndexOf (ops.baseName dest.path) '.' < ((ops.baseName dest.path).length : Int) - 1
        then (0, (lastIndexOf (ops.baseName dest.path) '.').toNat)
        else (0, (ops.baseName dest.path).length)) ∧
    (('.' ∉ (ops.baseName dest.path).data ∧ lastIndexOf (ops.baseName dest.path) '.' = -1) ∨
      ∃ stem ext, (ops.baseName dest.path).data = stem ++ '.' :: ext ∧ '.' ∉ ext ∧
        lastIndexOf (ops.baseName dest.path) '.' = (stem.length : Int)) := by
  obtain ⟨h1, h2, h3⟩ := new_fileName ops src dest
  refine ⟨h1, h2, ?_, lastIndexOf_spec _ '.'⟩
  rw [h3]
  simp only [initialSelection, gt_iff_lt]

end Fm
